import Mathlib

/-!
Verification development for the AltaLux CLAHE filter (AltaLux plugin for
IrfanView).  The definitions below are a shallow embedding of the C++ sources
under `src/AltaLux/Filter/`:

* `CBaseAltaLuxFilter.cpp` — histogram engine (`MakeHistogram`), histogram
  clipper (`ClipHistogram`), mapping generator (`MapHistogram`), bilinear
  interpolator (`Interpolate`), luminance extraction/injection, the generic
  colour entry point (`ProcessGeneric`) and the configuration methods
  (constructor, `SetStrength`, `SetSlices`).
* `CSerialAltaLuxFilter.cpp`, `CParallelSplitLoopAltaLuxFilter.cpp`,
  `CParallelActiveWaitAltaLuxFilter.cpp` — the `Run` orchestration strategies.

Machine integers: all pixel and histogram quantities are C `unsigned int`
(32 bit) or `unsigned char` (8 bit).  They are modelled as `Nat`, with an
explicit `% 2^32` (`U32`) or `% 256` at the places where the C computation can
wrap, and plain `Nat` subtraction where the C code subtracts unsigned values
(the relevant subtractions are shown not to underflow in the proofs).
Image buffers are modelled as total functions `Nat → Nat` from flat pixel
index to byte value; a mapping array entry is a 256-entry `List Nat`.
-/

/-- Status code `AL_OK` from `CBaseAltaLuxFilter.h`. -/
def AL_OK : Int := 0

/-- Status code `AL_NULL_IMAGE` from `CBaseAltaLuxFilter.h`. -/
def AL_NULL_IMAGE : Int := -1

/-- Status code `AL_OUT_OF_MEMORY` from `CBaseAltaLuxFilter.h`. -/
def AL_OUT_OF_MEMORY : Int := -11

/-- `NUM_GRAY_LEVELS` from `CBaseAltaLuxFilter.h`. -/
def NUM_GRAY_LEVELS : Nat := 256

/-- Modulus of C `unsigned int` arithmetic (32 bits). -/
def U32 : Nat := 4294967296

/-- Wrap-around subtraction of 32-bit unsigned values, used where the C code
subtracts `unsigned int` quantities that may underflow
(`ulUpper = ClipLimit - ulBinIncr`). Both arguments are assumed `< U32`. -/
def usub32 (a b : Nat) : Nat := (a + (U32 - b % U32)) % U32

/-- Algorithm-level configuration of a filter instance, mirroring the
data members of `CBaseAltaLuxFilter` that the `Run` strategies read.
The C++ fields are `int`s that are nonnegative in every state reachable from
the constructor, so they are modelled as `Nat` here (the configuration-level
claims about `SetStrength`/`SetSlices`/constructor clamping are settled on a
separate `Int`-faithful model `FilterState` below). -/
structure AltaCfg where
  OriginalImageWidth : Nat
  OriginalImageHeight : Nat
  NumHorRegions : Nat
  NumVertRegions : Nat

/-- `RegionWidth = OriginalImageWidth / NumHorRegions` (constructor /
`SetSlices`). -/
def RegionWidth (c : AltaCfg) : Nat := c.OriginalImageWidth / c.NumHorRegions

/-- `RegionHeight = OriginalImageHeight / NumVertRegions`. -/
def RegionHeight (c : AltaCfg) : Nat := c.OriginalImageHeight / c.NumVertRegions

/-- `ImageWidth = RegionWidth * NumHorRegions`. -/
def ImageWidth (c : AltaCfg) : Nat := RegionWidth c * c.NumHorRegions

/-- `ImageHeight = RegionHeight * NumVertRegions`. -/
def ImageHeight (c : AltaCfg) : Nat := RegionHeight c * c.NumVertRegions

/-! ## Histogram engine: `CBaseAltaLuxFilter::MakeHistogram` -/

/-- The list of pixel values of one `RegionWidth × RegionHeight` tile whose
top-left corner sits at flat index `origin`; rows advance by the full image
stride `OriginalImageWidth`, exactly as the pointer walk in `MakeHistogram`. -/
def tilePixels (c : AltaCfg) (img : Nat → Nat) (origin : Nat) : List Nat :=
  ((List.range (RegionHeight c)).map (fun i =>
    (List.range (RegionWidth c)).map (fun j =>
      img (origin + i * c.OriginalImageWidth + j)))).flatten

/-- `MakeHistogram`: 256-bin histogram of one tile.  The C loop clears the
output array and increments `pHistogram[*pImage++]` for every tile pixel;
bin `g` of the result therefore holds the number of tile pixels equal to
`g`. -/
def MakeHistogram (c : AltaCfg) (img : Nat → Nat) (origin : Nat) : List Nat :=
  let px := tilePixels c img origin
  (List.range NUM_GRAY_LEVELS).map (fun g => px.count g)

/-! ## Histogram clipper: `CBaseAltaLuxFilter::ClipHistogram`

The C function has three parts: a pass summing the excess above the clip
limit, a pass clipping each bin and pre-distributing the average increment,
and a `while (ulNrExcess)` loop that walks the bins with a shrinking stride
until the remaining excess reaches zero.  The while loop is embedded with an
explicit outer iteration count (`Function.iterate`); since every productive
outer pass decreases the excess by at least one, `excess` many passes are
enough whenever the C loop terminates at all, and the termination claims are
stated in terms of these iterates. -/

/-- First part of `ClipHistogram`: total number of excess pixels,
`Σ max 0 (bin - clip)`, accumulated in a 32-bit unsigned counter. -/
def clipExcess (hist : List Nat) (clip : Nat) : Nat :=
  ((hist.map (fun h => h - clip)).sum) % U32

/-- Second part of `ClipHistogram`: clip each bin and redistribute the average
increment, threading the running excess `e` through the bins in order.
`upper = ClipLimit - ulBinIncr` (computed by the caller with `usub32`). -/
def ClipBinsGo (clip upper binIncr : Nat) : List Nat → Nat → List Nat × Nat
  | [], e => ([], e)
  | h :: t, e =>
    if clip < h then
      let r := ClipBinsGo clip upper binIncr t e
      (clip :: r.1, r.2)
    else if upper < h then
      let r := ClipBinsGo clip upper binIncr t (e - (h - upper))
      (clip :: r.1, r.2)
    else
      let r := ClipBinsGo clip upper binIncr t (e - binIncr)
      (((h + binIncr) % U32) :: r.1, r.2)

/-- The histogram/excess state after the first two parts of `ClipHistogram`
(everything before the `while (ulNrExcess)` redistribution loop). -/
def clipPhase2 (hist : List Nat) (clip : Nat) : List Nat × Nat :=
  let e0 := clipExcess hist clip
  let binIncr := e0 / NUM_GRAY_LEVELS
  let upper := usub32 clip binIncr
  ClipBinsGo clip upper binIncr hist e0

/-- Innermost redistribution loop of `ClipHistogram`:
`for (pulBinPointer = pulHisto; pulBinPointer < pulEndPointer && ulNrExcess;
pulBinPointer += ulStepSize)`.  The first argument is fuel; the caller passes
256, which is never exhausted before `pos` leaves the array because the step
is at least 1. -/
def redistInner (clip : Nat) : Nat → List Nat → Nat → Nat → Nat → List Nat × Nat
  | 0, hist, e, _, _ => (hist, e)
  | fuel + 1, hist, e, pos, step =>
    if pos < NUM_GRAY_LEVELS ∧ 0 < e then
      if hist.getD pos 0 < clip then
        redistInner clip fuel (hist.set pos ((hist.getD pos 0 + 1) % U32)) (e - 1)
          (pos + step) step
      else
        redistInner clip fuel hist e (pos + step) step
    else (hist, e)

/-- Middle redistribution loop of `ClipHistogram`:
`while (ulNrExcess && pulHisto < pulEndPointer)`, restarting the strided inner
walk at each successive start position and recomputing the step size
`max (256 / excess) 1` each time.  Fuel is 256, one unit per start position. -/
def redistStarts (clip : Nat) : Nat → List Nat → Nat → Nat → List Nat × Nat
  | 0, hist, e, _ => (hist, e)
  | fuel + 1, hist, e, start =>
    if 0 < e ∧ start < NUM_GRAY_LEVELS then
      let step := max (NUM_GRAY_LEVELS / e) 1
      let r := redistInner clip NUM_GRAY_LEVELS hist e start step
      redistStarts clip fuel r.1 r.2 (start + 1)
    else (hist, e)

/-- One iteration of the outer `while (ulNrExcess)` loop. -/
def redistPass (clip : Nat) (s : List Nat × Nat) : List Nat × Nat :=
  redistStarts clip NUM_GRAY_LEVELS s.1 s.2 0

/-- Guarded outer iteration: run one redistribution pass unless the excess is
already zero (the loop guard `while (ulNrExcess)`). -/
def redistStep (clip : Nat) (s : List Nat × Nat) : List Nat × Nat :=
  if s.2 = 0 then s else redistPass clip s

/-- `ClipHistogram`: clip a 256-bin histogram to `clip` and redistribute the
excess.  The outer while loop is run `excess`-after-phase-2 many times, which
is an upper bound on the number of iterations the C loop can make whenever it
terminates (each productive pass decreases the excess by at least one, and a
pass that changes nothing repeats forever). -/
def ClipHistogram (hist : List Nat) (clip : Nat) : List Nat :=
  let s := clipPhase2 hist clip
  ((redistStep clip)^[s.2] s).1

/-! ## Mapping generator: `CBaseAltaLuxFilter::MapHistogram`

The C code accumulates `unsigned int HistoSum += pHistogram[i]` — a 32-bit
sum that wraps modulo `2^32` — multiplies it by the `float` scale
`255.0f / NumOfPixels` and converts to an integer with truncation
(`_mm_cvtt_ss2si`).  The float computation is modelled by the exact value
`(sum * 255) / numPixels` in integer arithmetic; the properties proved about
it (the 255 bound from the final `min`, and monotonicity in the gray level
whenever the running sum does not wrap) are invariant under any monotone
rounding of the scale. -/

/-- Loop body of `MapHistogram`, threading the running 32-bit sum `acc`
(`HistoSum += pHistogram[i]` wraps modulo `2^32`). -/
def MapHistogramGo (numPixels : Nat) : Nat → List Nat → List Nat
  | _, [] => []
  | acc, h :: t =>
    let s := (acc + h) % U32
    min 255 ((s * 255) / numPixels) :: MapHistogramGo numPixels s t

/-- `MapHistogram`: cumulative histogram rescaled to `[0, 255]`. -/
def MapHistogram (hist : List Nat) (numPixels : Nat) : List Nat :=
  MapHistogramGo numPixels 0 hist

/-! ## Bilinear interpolator: `CBaseAltaLuxFilter::Interpolate` -/

/-- Shift-count loop of `Interpolate`:
`while (MatrixArea >>= 1) ShiftIndex++;`.  Fuel-based so it evaluates in the
kernel; 32 units of fuel are enough for any 32-bit `MatrixArea`. -/
def shiftIndexGo : Nat → Nat → Nat → Nat
  | 0, _, acc => acc
  | fuel + 1, a, acc =>
    let a2 := a / 2
    if a2 = 0 then acc else shiftIndexGo fuel a2 (acc + 1)

/-- Number of shifts performed by the `while (MatrixArea >>= 1)` loop,
i.e. `⌊log2 MatrixArea⌋` for a positive 32-bit `MatrixArea`. -/
def shiftIndexOf (area : Nat) : Nat := shiftIndexGo 32 area 0

/-- New value of one pixel of the interpolated block: the bilinear weighting
of the four tile mappings at the pixel's original gray value `g`, at relative
position `(x, y)` in a `MatrixWidth × MatrixHeight` block.  All intermediate
arithmetic is C `unsigned int`, hence the `% U32`; the store casts to
`PixelType` (`unsigned char`), hence the final `% 256`.  When the block area
is a power of two the C code shifts right instead of dividing (and adds no
rounding term); otherwise it divides after adding `MatrixArea >> 1`. -/
def interpVal (mLU mRU mLB mRB : List Nat) (MatrixWidth MatrixHeight x y g : Nat) : Nat :=
  let area := MatrixWidth * MatrixHeight
  let num := (MatrixHeight - y) * ((MatrixWidth - x) * mLU.getD g 0 + x * mRU.getD g 0)
    + y * ((MatrixWidth - x) * mLB.getD g 0 + x * mRB.getD g 0)
  if area &&& (area - 1) = 0 then
    ((num % U32) >>> shiftIndexOf area) % 256
  else
    (((num + area / 2) % U32) / area) % 256

/-- `Interpolate`: rewrite the `MatrixWidth × MatrixHeight` block whose
top-left pixel has flat index `base` (row stride `OW = OriginalImageWidth`)
in place.  The C loop reads each pixel's original value and overwrites only
that pixel, so the result is pointwise in the pixel's own old value; pixels
outside the block are untouched.  (Faithful for `MatrixWidth ≤ OW`, which
holds for every block the orchestrator produces; wider blocks would make the
C pointer walk leave the row, which is undefined behaviour.) -/
def Interpolate (OW : Nat) (img : Nat → Nat) (base : Nat)
    (mLU mRU mLB mRB : List Nat) (MatrixWidth MatrixHeight : Nat) : Nat → Nat :=
  fun p =>
    if base ≤ p ∧ (p - base) % OW < MatrixWidth ∧ (p - base) / OW < MatrixHeight then
      interpVal mLU mRU mLB mRB MatrixWidth MatrixHeight
        ((p - base) % OW) ((p - base) / OW) (img p)
    else img p

/-! ## Orchestration: the `Run` strategies

All strategies iterate a row index `uiY` over `0 .. NumVertRegions`.  For a
given `uiY` they do two pieces of work:

* phase 1 (only for `uiY < NumVertRegions`): compute, clip and map the
  histograms of the `NumHorRegions` tiles of the strip starting at image row
  `stripRow uiY`, storing them in the mapping array;
* phase 2: interpolate the `NumHorRegions + 1` blocks of that strip from the
  four neighbouring tile mappings.

They differ only in the order in which the `(row, phase)` pairs execute.
`concurrency::parallel_for` is embedded as an in-order fold over the row
indices; the per-row tasks write disjoint state (proved by the framing
lemmas below), which is what makes every schedule produce the same result. -/

/-- First image row of the strip belonging to row index `uiY`:
`pImPointer += ((RegionHeight >> 1) + ((uiY - 1) * RegionHeight)) *
OriginalImageWidth` for `uiY > 0`, else 0. -/
def stripRow (c : AltaCfg) (uiY : Nat) : Nat :=
  if 0 < uiY then RegionHeight c / 2 + (uiY - 1) * RegionHeight c else 0

/-- Flat index of the top-left pixel of phase-1 tile `uiX` of row `uiY`
(the phase-1 pointer starts at the strip base and advances by `RegionWidth`
per tile). -/
def tileOrigin (c : AltaCfg) (uiY uiX : Nat) : Nat :=
  stripRow c uiY * c.OriginalImageWidth + uiX * RegionWidth c

/-- One tile's phase-1 work: `MakeHistogram`, `ClipHistogram`,
`MapHistogram` (with `NumPixels = RegionWidth * RegionHeight`). -/
def computeTile (c : AltaCfg) (clip : Nat) (img : Nat → Nat) (uiY uiX : Nat) : List Nat :=
  MapHistogram (ClipHistogram (MakeHistogram c img (tileOrigin c uiY uiX)) clip)
    (RegionWidth c * RegionHeight c)

/-- Mutable state of one `Run`: the luminance image buffer and the mapping
array `pulMapArray` (indexed by tile row and tile column; the flat C index
`NUM_GRAY_LEVELS * (row * NumHorRegions + col)` is injective in
`(row, col)` for `col < NumHorRegions`, which covers every access). -/
structure AlgState where
  img : Nat → Nat
  maps : Nat → Nat → List Nat

/-- Phase 1 of row `uiY`: store the tile mappings of the row
(`if (uiY < NumVertRegions)` guard included); the image is not modified. -/
def phase1 (c : AltaCfg) (clip uiY : Nat) (st : AlgState) : AlgState :=
  { img := st.img
    maps := fun r x =>
      if r = uiY ∧ uiY < c.NumVertRegions ∧ x < c.NumHorRegions then
        computeTile c clip st.img uiY x
      else st.maps r x }

/-- `uiSubY`: height of the interpolation blocks of row `uiY` (half a region
on the top row; half a region plus the remainder rows on the bottom row). -/
def uiSubY (c : AltaCfg) (uiY : Nat) : Nat :=
  if uiY = 0 then RegionHeight c / 2
  else if uiY = c.NumVertRegions then
    RegionHeight c / 2 + (c.OriginalImageHeight - ImageHeight c)
  else RegionHeight c

/-- `uiYU`: tile row of the two upper mappings used by row `uiY`. -/
def uiYU (c : AltaCfg) (uiY : Nat) : Nat :=
  if uiY = 0 then 0
  else if uiY = c.NumVertRegions then c.NumVertRegions - 1
  else uiY - 1

/-- `uiYB`: tile row of the two lower mappings used by row `uiY`. -/
def uiYB (c : AltaCfg) (uiY : Nat) : Nat :=
  if uiY = 0 then 0
  else if uiY = c.NumVertRegions then c.NumVertRegions - 1
  else uiY

/-- `uiSubX`: width of interpolation block `uiX` (half a region in the left
column; half a region plus the remainder columns in the right column). -/
def uiSubX (c : AltaCfg) (uiX : Nat) : Nat :=
  if uiX = 0 then RegionWidth c / 2
  else if uiX = c.NumHorRegions then
    RegionWidth c / 2 + (c.OriginalImageWidth - ImageWidth c)
  else RegionWidth c

/-- `uiXL`: tile column of the two left mappings used by block `uiX`. -/
def uiXL (c : AltaCfg) (uiX : Nat) : Nat :=
  if uiX = 0 then 0
  else if uiX = c.NumHorRegions then c.NumHorRegions - 1
  else uiX - 1

/-- `uiXR`: tile column of the two right mappings used by block `uiX`. -/
def uiXR (c : AltaCfg) (uiX : Nat) : Nat :=
  if uiX = 0 then 0
  else if uiX = c.NumHorRegions then c.NumHorRegions - 1
  else uiX

/-- Horizontal offset of block `uiX` inside its strip: the phase-2 pointer
advances by `uiSubX` after each block. -/
def xOffset (c : AltaCfg) (uiX : Nat) : Nat :=
  ((List.range uiX).map (uiSubX c)).sum

/-- Phase 2 of row `uiY` on the image component: interpolate the
`NumHorRegions + 1` blocks of the strip, reading the mapping array. -/
def phase2Img (c : AltaCfg) (maps : Nat → Nat → List Nat) (uiY : Nat)
    (img : Nat → Nat) : Nat → Nat :=
  (List.range (c.NumHorRegions + 1)).foldl (fun im uiX =>
    Interpolate c.OriginalImageWidth im
      (stripRow c uiY * c.OriginalImageWidth + xOffset c uiX)
      (maps (uiYU c uiY) (uiXL c uiX)) (maps (uiYU c uiY) (uiXR c uiX))
      (maps (uiYB c uiY) (uiXL c uiX)) (maps (uiYB c uiY) (uiXR c uiX))
      (uiSubX c uiX) (uiSubY c uiY)) img

/-- Phase 2 of row `uiY`; the mapping array is read-only here. -/
def phase2 (c : AltaCfg) (uiY : Nat) (st : AlgState) : AlgState :=
  { img := phase2Img c st.maps uiY st.img, maps := st.maps }

/-- Serial strategy row body (`CSerialAltaLuxFilter::Run` loop body):
phase 1 of the row followed immediately by phase 2 of the same row. -/
def serialBody (c : AltaCfg) (clip : Nat) (st : AlgState) (uiY : Nat) : AlgState :=
  phase2 c uiY (phase1 c clip uiY st)

/-- Core of `CSerialAltaLuxFilter::Run`: rows `0 .. NumVertRegions` in order,
phases interleaved per row. -/
def serialCore (c : AltaCfg) (clip : Nat) (st : AlgState) : AlgState :=
  (List.range (c.NumVertRegions + 1)).foldl (serialBody c clip) st

/-- Core of `CParallelSplitLoopAltaLuxFilter::Run`: a `parallel_for` running
phase 1 for every row, an implicit barrier, then a `parallel_for` running
phase 2 for every row.  Each `parallel_for` is embedded as an in-order fold
over the row indices. -/
def splitLoopCore (c : AltaCfg) (clip : Nat) (st : AlgState) : AlgState :=
  (List.range (c.NumVertRegions + 1)).foldl (fun s uiY => phase2 c uiY s)
    ((List.range (c.NumVertRegions + 1)).foldl (fun s uiY => phase1 c clip uiY s) st)

/-- Core of `CParallelActiveWaitAltaLuxFilter::Run`: a single `parallel_for`
whose task for row `uiY` runs phase 1 of the row and then phase 2 of the row,
spin-waiting on the `FirstPhaseCompleted` counters of row `uiY - 1` before
each block.  Embedded as the in-order fold of the task bodies (the spin waits
only affect scheduling). -/
def activeWaitCore (c : AltaCfg) (clip : Nat) (st : AlgState) : AlgState :=
  (List.range (c.NumVertRegions + 1)).foldl
    (fun s uiY => phase2 c uiY (phase1 c clip uiY s)) st

/-- Modelled from the spec: the source file of the event-based strategy
(`CParallelEventAltaLuxFilter.cpp`) is not part of the repository snapshot —
only its factory case and header references are.  Per spec §4.5 it runs the
identical two phases, with phase-2 per-row tasks waiting on per-row
completion events so that row `uiY`'s interpolation may start as soon as the
phase-1 work of rows `uiY - 1` and `uiY` is complete.  It is embedded as a
sequential schedule realising exactly that pipelining:
`P1 0; (P1 1; P2 0); (P1 2; P2 1); …; (P1 NV; P2 (NV-1)); P2 NV`. -/
def eventCore (c : AltaCfg) (clip : Nat) (st : AlgState) : AlgState :=
  phase2 c c.NumVertRegions
    ((List.range c.NumVertRegions).foldl
      (fun s uiY => phase2 c uiY (phase1 c clip (uiY + 1) s))
      (phase1 c clip 0 st))

/-- `ulClipLimit` as computed at the top of every `Run`:
`(unsigned int)(ClipLimit * (RegionWidth * RegionHeight) / NUM_GRAY_LEVELS)`,
floored to at least 1; a large value `1 << 14` if `ClipLimit ≤ 0` (AHE).
The `float` expression is modelled by the exact rational value, truncated
toward zero as the C cast does. -/
def ulClipLimitOf (c : AltaCfg) (ClipLimit : Rat) : Nat :=
  if 0 < ClipLimit then
    max (Int.toNat ⌊ClipLimit * ((RegionWidth c * RegionHeight c : Nat) : Rat) / 256⌋) 1
  else 2 ^ 14

/-- Initial mapping array of a `Run` (freshly allocated; never read before
written, so the initial value is irrelevant and shared by all strategies). -/
def initMaps : Nat → Nat → List Nat := fun _ _ => []

/-- `CSerialAltaLuxFilter::Run`: pass-through when `ClipLimit == 1.0`,
out-of-memory if the mapping-array allocation fails (`mapAllocOk = false`),
otherwise the serial core on the image buffer. -/
def serialRun (c : AltaCfg) (ClipLimit : Rat) (mapAllocOk : Bool)
    (img : Nat → Nat) : Int × (Nat → Nat) :=
  if ClipLimit = 1 then (AL_OK, img)
  else if mapAllocOk = false then (AL_OUT_OF_MEMORY, img)
  else (AL_OK, (serialCore c (ulClipLimitOf c ClipLimit) ⟨img, initMaps⟩).img)

/-- `CParallelSplitLoopAltaLuxFilter::Run` (same wrapper, split-loop core). -/
def splitLoopRun (c : AltaCfg) (ClipLimit : Rat) (mapAllocOk : Bool)
    (img : Nat → Nat) : Int × (Nat → Nat) :=
  if ClipLimit = 1 then (AL_OK, img)
  else if mapAllocOk = false then (AL_OUT_OF_MEMORY, img)
  else (AL_OK, (splitLoopCore c (ulClipLimitOf c ClipLimit) ⟨img, initMaps⟩).img)

/-- `CParallelActiveWaitAltaLuxFilter::Run` (same wrapper, active-wait
core). -/
def activeWaitRun (c : AltaCfg) (ClipLimit : Rat) (mapAllocOk : Bool)
    (img : Nat → Nat) : Int × (Nat → Nat) :=
  if ClipLimit = 1 then (AL_OK, img)
  else if mapAllocOk = false then (AL_OUT_OF_MEMORY, img)
  else (AL_OK, (activeWaitCore c (ulClipLimitOf c ClipLimit) ⟨img, initMaps⟩).img)

/-- Modelled from the spec: `Run` of the event-based strategy (source file
missing, see `eventCore`); identical wrapper around the pipelined core. -/
def eventRun (c : AltaCfg) (ClipLimit : Rat) (mapAllocOk : Bool)
    (img : Nat → Nat) : Int × (Nat → Nat) :=
  if ClipLimit = 1 then (AL_OK, img)
  else if mapAllocOk = false then (AL_OUT_OF_MEMORY, img)
  else (AL_OK, (eventCore c (ulClipLimitOf c ClipLimit) ⟨img, initMaps⟩).img)

/-! ## Luminance extraction / injection
(`CBaseAltaLuxFilter::ExtractYComponent`, `InjectYComponent`,
`ProcessGeneric`).  The scalar code paths are embedded (the SSE2 paths
compute the same formula vectorised).  `SCALING_LOG = 15`; the channel
factors are `(int)(0.299 * 32768) = 9797`, `(int)(0.587 * 32768) = 19234`,
`(int)(0.114 * 32768) = 3735`. -/

/-- `SCALING_LOG` from `CBaseAltaLuxFilter.cpp`. -/
def SCALING_LOG : Nat := 15

/-- `Y_RED_SCALE = (int)(0.299 * (1 << 15)) = 9797`. -/
def Y_RED_SCALE : Nat := 9797

/-- `Y_GREEN_SCALE = (int)(0.587 * (1 << 15)) = 19234`. -/
def Y_GREEN_SCALE : Nat := 19234

/-- `Y_BLUE_SCALE = (int)(0.114 * (1 << 15)) = 3735`. -/
def Y_BLUE_SCALE : Nat := 3735

/-- Per-pixel luminance as computed in both `ExtractYComponent` and
`InjectYComponent`:
`min(((src[0]*f1 + src[1]*f2 + src[2]*f3 + (1 << 14)) >> 15), 255)`
for pixel `i` of a buffer with `PixelOffset` bytes per pixel. -/
def lumaOf (buf : Nat → Nat) (f1 f2 f3 PixelOffset i : Nat) : Nat :=
  min ((buf (i * PixelOffset) * f1 + buf (i * PixelOffset + 1) * f2
    + buf (i * PixelOffset + 2) * f3 + 2 ^ (SCALING_LOG - 1)) / 2 ^ SCALING_LOG) 255

/-- `ExtractYComponent`: write the luminance of each of the `numPixels`
pixels into the working buffer (entries beyond `numPixels` are unspecified in
C — the C code leaves them unwritten — and are modelled as 0; no theorem
depends on them). -/
def ExtractYComponent (numPixels : Nat) (buf : Nat → Nat)
    (f1 f2 f3 PixelOffset : Nat) : Nat → Nat :=
  fun i => if i < numPixels then lumaOf buf f1 f2 f3 PixelOffset i else 0

/-- `InjectYComponent`: for each pixel, recompute the original luminance from
the (unmodified) colour channels, read the new luminance from the working
buffer, and rescale the three channels by the lookup value
`scaleLUT[oldY][newY] = (newY << 8) / oldY`, clamping to 255; a pixel with
`oldY = 0` is set to grayscale `newY`.  Bytes of a pixel beyond the first
three (the 32-bit alpha byte) and bytes beyond the pixel range are left
untouched.  The three channel writes are independent: each channel is
rewritten from its own original value and the luminances read before any
write to that byte. -/
def InjectYComponent (numPixels : Nat) (buf ybuf : Nat → Nat)
    (f1 f2 f3 PixelOffset : Nat) : Nat → Nat :=
  fun idx =>
    let i := idx / PixelOffset
    let ch := idx % PixelOffset
    if i < numPixels ∧ ch < 3 then
      let OldYValue := lumaOf buf f1 f2 f3 PixelOffset i
      let NewYValue := ybuf i
      if OldYValue = 0 then NewYValue
      else min ((buf idx * ((NewYValue * 256) / OldYValue)) / 256) 255
    else buf idx

/-- `CBaseAltaLuxFilter::ProcessGeneric`: null check, working-buffer
allocation (`hasBuf` is whether `ImageBuffer` is already allocated,
`bufAllocOk` whether the retry allocation succeeds), luminance extraction,
`Run` (the serial strategy core is used as the reference `Run`;
`mapAllocOk` is its mapping-array allocation outcome), luminance
re-injection. -/
def ProcessGeneric (c : AltaCfg) (ClipLimit : Rat) (hasBuf bufAllocOk mapAllocOk : Bool)
    (Image : Option (Nat → Nat)) (f1 f2 f3 PixelOffset : Nat) :
    Int × Option (Nat → Nat) :=
  match Image with
  | none => (AL_NULL_IMAGE, none)
  | some buf =>
    if hasBuf = false ∧ bufAllocOk = false then (AL_OUT_OF_MEMORY, some buf)
    else
      let numPixels := c.OriginalImageWidth * c.OriginalImageHeight
      let ybuf := ExtractYComponent numPixels buf f1 f2 f3 PixelOffset
      let r := serialRun c ClipLimit mapAllocOk ybuf
      if r.1 = AL_OK then
        (AL_OK, some (InjectYComponent numPixels buf r.2 f1 f2 f3 PixelOffset))
      else (r.1, some buf)

/-! ## Configuration model: constructor, `SetStrength`, `SetSlices`

This mirrors the C++ `int` fields faithfully (including negative inputs),
so the fields are `Int` here.  `ClipLimit` is a `float` member; it is
modelled as the exact rational value of the expression
`MIN_CLIP_LIMIT + (MAX_CLIP_LIMIT - MIN_CLIP_LIMIT) * (Strength - AL_MIN_STRENGTH)
/ (AL_MAX_STRENGTH - AL_MIN_STRENGTH)`; for the integer strengths in
`[0, 100]` the float result is exactly 1.0 iff the rational value is 1. -/

/-- `AL_MIN_STRENGTH = 0`, `AL_MAX_STRENGTH = 100`,
`AL_DEFAULT_STRENGTH = 25` from `CBaseAltaLuxFilter.h`. -/
def AL_MIN_STRENGTH : Int := 0

/-- `AL_MAX_STRENGTH` from `CBaseAltaLuxFilter.h`. -/
def AL_MAX_STRENGTH : Int := 100

/-- `AL_DEFAULT_STRENGTH` from `CBaseAltaLuxFilter.h`. -/
def AL_DEFAULT_STRENGTH : Int := 25

/-- `MIN_HOR_REGIONS = MIN_VERT_REGIONS = 2`,
`MAX_HOR_REGIONS = MAX_VERT_REGIONS = 16` from `CBaseAltaLuxFilter.h`. -/
def MIN_REGIONS : Int := 2

/-- Maximum tile count per axis from `CBaseAltaLuxFilter.h`. -/
def MAX_REGIONS : Int := 16

/-- Configuration state of one `CBaseAltaLuxFilter` instance. -/
structure FilterState where
  OriginalImageWidth : Int
  OriginalImageHeight : Int
  NumHorRegions : Int
  NumVertRegions : Int
  RegionWidth : Int
  RegionHeight : Int
  ImageWidth : Int
  ImageHeight : Int
  Strength : Int
  hasImageBuffer : Bool

/-- `CBaseAltaLuxFilter::SetStrength`: note the `Strength = _Strength + 4`
offset before clamping to `[AL_MIN_STRENGTH, AL_MAX_STRENGTH]`; the working
buffer is freed when the clamped strength is 0 and (re)allocated otherwise
(`allocOk` is the allocation outcome). -/
def SetStrength (S : Int) (allocOk : Bool) (st : FilterState) : FilterState :=
  let s1 := S + 4
  let s2 := if s1 < AL_MIN_STRENGTH then AL_MIN_STRENGTH else s1
  let s3 := if s2 > AL_MAX_STRENGTH then AL_MAX_STRENGTH else s2
  { st with
    Strength := s3
    hasImageBuffer := if s3 = AL_MIN_STRENGTH then false
      else (st.hasImageBuffer || allocOk) }

/-- The `ClipLimit` member after `SetStrength`, as an exact rational:
`1 + 4 * (Strength - 0) / 100`, clamped to `[1, 5]` (the clamps are no-ops
for strengths in `[0, 100]`). -/
def clipLimitOf (st : FilterState) : Rat :=
  let cl : Rat := 1 + (5 - 1) * ((st.Strength : Rat) - 0) / (100 - 0)
  min 5 (max 1 cl)

/-- `CBaseAltaLuxFilter::SetSlices`: clamp both tile counts to
`[MIN_REGIONS, MAX_REGIONS]` and recompute the region/image dimensions
(C `int` division truncates toward zero: `Int.tdiv`). -/
def SetSlices (HorSlices VerSlices : Int) (st : FilterState) : FilterState :=
  let hs1 := if HorSlices < MIN_REGIONS then MIN_REGIONS else HorSlices
  let hs := if hs1 > MAX_REGIONS then MAX_REGIONS else hs1
  let vs1 := if VerSlices < MIN_REGIONS then MIN_REGIONS else VerSlices
  let vs := if vs1 > MAX_REGIONS then MAX_REGIONS else vs1
  let rw := Int.tdiv st.OriginalImageWidth hs
  let rh := Int.tdiv st.OriginalImageHeight vs
  { st with
    NumHorRegions := hs
    NumVertRegions := vs
    RegionWidth := rw
    RegionHeight := rh
    ImageWidth := rw * hs
    ImageHeight := rh * vs }

/-- `CBaseAltaLuxFilter::CBaseAltaLuxFilter`: stores the requested tile
counts without clamping, computes the region/image dimensions and calls
`SetStrength()` with the default strength 25. -/
def mkFilter (Width Height HorSlices VerSlices : Int) (allocOk : Bool) : FilterState :=
  let rw := Int.tdiv Width HorSlices
  let rh := Int.tdiv Height VerSlices
  SetStrength AL_DEFAULT_STRENGTH allocOk
    { OriginalImageWidth := Width
      OriginalImageHeight := Height
      NumHorRegions := HorSlices
      NumVertRegions := VerSlices
      RegionWidth := rw
      RegionHeight := rh
      ImageWidth := rw * HorSlices
      ImageHeight := rh * VerSlices
      Strength := 0
      hasImageBuffer := false }

/-! ## Interpolation-block coverage (claim C6) -/

/-- Total area of the `(NumHorRegions + 1) × (NumVertRegions + 1)`
interpolation blocks processed during phase 2. -/
def blockAreasTotal (c : AltaCfg) : Nat :=
  ((List.range (c.NumVertRegions + 1)).map (fun uiY =>
    ((List.range (c.NumHorRegions + 1)).map (fun uiX =>
      uiSubX c uiX * uiSubY c uiY)).sum)).sum

/-! # Proofs -/

/-! ## List helpers -/

theorem sum_set_add (l : List Nat) (v : Nat) :
    ∀ n, n < l.length → (l.set n v).sum + l.getD n 0 = l.sum + v := by
  induction l with
  | nil => intro n h; simp at h
  | cons a t ih =>
    intro n h
    cases n with
    | zero => simp [List.set, List.getD]; omega
    | succ m =>
      simp only [List.set, List.sum_cons, List.getD_cons_succ]
      have := ih m (by simpa using Nat.lt_of_succ_lt_succ h)
      omega

theorem getD_le_of_all (l : List Nat) (b : Nat) (h : ∀ x ∈ l, x ≤ b) (i : Nat) :
    l.getD i 0 ≤ b := by
  rcases Nat.lt_or_ge i l.length with hi | hi
  · rw [List.getD_eq_getElem l 0 hi]
    exact h _ (l.getElem_mem hi)
  · rw [List.getD_eq_default l 0 hi]
    exact Nat.zero_le b

theorem getD_mem_or_zero (l : List Nat) (i : Nat) : l.getD i 0 ∈ l ∨ l.getD i 0 = 0 := by
  rcases Nat.lt_or_ge i l.length with hi | hi
  · rw [List.getD_eq_getElem l 0 hi]
    exact Or.inl (l.getElem_mem hi)
  · rw [List.getD_eq_default l 0 hi]
    exact Or.inr rfl

/-! ## `MapHistogram` lemmas (claim C5) -/

theorem mapHistogramGo_length (numPixels : Nat) :
    ∀ (l : List Nat) (acc : Nat), (MapHistogramGo numPixels acc l).length = l.length := by
  intro l
  induction l with
  | nil => intro acc; rfl
  | cons h t ih => intro acc; simp [MapHistogramGo, ih]

theorem mapHistogramGo_le255 (numPixels : Nat) :
    ∀ (l : List Nat) (acc : Nat), ∀ x ∈ MapHistogramGo numPixels acc l, x ≤ 255 := by
  intro l
  induction l with
  | nil => intro acc x hx; simp [MapHistogramGo] at hx
  | cons h t ih =>
    intro acc x hx
    simp only [MapHistogramGo, List.mem_cons] at hx
    rcases hx with rfl | hx
    · exact Nat.min_le_left _ _
    · exact ih _ x hx

theorem mapHistogramGo_lowerBound (numPixels : Nat) :
    ∀ (l : List Nat) (acc : Nat), acc + l.sum < U32 →
      ∀ x ∈ MapHistogramGo numPixels acc l,
      min 255 ((acc * 255) / numPixels) ≤ x := by
  intro l
  induction l with
  | nil => intro acc _ x hx; simp [MapHistogramGo] at hx
  | cons h t ih =>
    intro acc hnw x hx
    simp only [List.sum_cons] at hnw
    have hmod : (acc + h) % U32 = acc + h := Nat.mod_eq_of_lt (by omega)
    simp only [MapHistogramGo, List.mem_cons] at hx
    rw [hmod] at hx
    have hmono : min 255 ((acc * 255) / numPixels) ≤
        min 255 (((acc + h) * 255) / numPixels) := by
      have : (acc * 255) / numPixels ≤ ((acc + h) * 255) / numPixels :=
        Nat.div_le_div_right (Nat.mul_le_mul_right 255 (Nat.le_add_right acc h))
      omega
    rcases hx with rfl | hx
    · exact hmono
    · exact Nat.le_trans hmono (ih (acc + h) (by omega) x hx)

theorem mapHistogramGo_pairwise (numPixels : Nat) :
    ∀ (l : List Nat) (acc : Nat), acc + l.sum < U32 →
      List.Pairwise (· ≤ ·) (MapHistogramGo numPixels acc l) := by
  intro l
  induction l with
  | nil => intro acc _; simp [MapHistogramGo]
  | cons h t ih =>
    intro acc hnw
    simp only [List.sum_cons] at hnw
    have hmod : (acc + h) % U32 = acc + h := Nat.mod_eq_of_lt (by omega)
    simp only [MapHistogramGo]
    rw [hmod]
    exact List.Pairwise.cons
      (fun x hx => mapHistogramGo_lowerBound numPixels t (acc + h) (by omega) x hx)
      (ih (acc + h) (by omega))

theorem mapHistogram_getD_mono (hist : List Nat) (numPixels i j : Nat)
    (hnw : hist.sum < U32)
    (hij : i ≤ j) (hj : j < (MapHistogram hist numPixels).length) :
    (MapHistogram hist numPixels).getD i 0 ≤ (MapHistogram hist numPixels).getD j 0 := by
  have hi : i < (MapHistogram hist numPixels).length := Nat.lt_of_le_of_lt hij hj
  rw [List.getD_eq_getElem _ 0 hi, List.getD_eq_getElem _ 0 hj]
  rcases Nat.lt_or_ge i j with hlt | hge
  · exact List.pairwise_iff_get.mp
      (mapHistogramGo_pairwise numPixels hist 0 (by omega)) ⟨i, hi⟩ ⟨j, hj⟩ hlt
  · have : i = j := Nat.le_antisymm hij hge
    subst this
    exact Nat.le_refl _

/-! ## `ClipHistogram` lemmas (claims C3, C4)

The key invariants of the redistribution loop: the bin list keeps length 256,
bins stay at most `clip`, and `sum + excess` is preserved (each increment
moves one unit from the excess counter into a bin).  A pass that does not
decrease the excess leaves the histogram unchanged, so the loop terminates
exactly when `sum + excess` fits under the ceiling `256 * clip`. -/

theorem redistInner_spec (clip : Nat) (hclip : clip < U32) :
    ∀ (fuel : Nat) (hist : List Nat) (e pos step : Nat),
      hist.length = 256 → (∀ x ∈ hist, x ≤ clip) →
      (redistInner clip fuel hist e pos step).1.length = 256 ∧
      (∀ x ∈ (redistInner clip fuel hist e pos step).1, x ≤ clip) ∧
      (redistInner clip fuel hist e pos step).1.sum
        + (redistInner clip fuel hist e pos step).2 = hist.sum + e ∧
      (redistInner clip fuel hist e pos step).2 ≤ e ∧
      ((redistInner clip fuel hist e pos step).2 = e →
        (redistInner clip fuel hist e pos step).1 = hist) := by
  intro fuel
  induction fuel with
  | zero =>
    intro hist e pos step hlen hbins
    exact ⟨hlen, hbins, rfl, Nat.le_refl e, fun _ => rfl⟩
  | succ fuel ih =>
    intro hist e pos step hlen hbins
    by_cases hc : pos < NUM_GRAY_LEVELS ∧ 0 < e
    · by_cases hg : hist.getD pos 0 < clip
      · have hval : (hist.getD pos 0 + 1) % U32 = hist.getD pos 0 + 1 :=
          Nat.mod_eq_of_lt (Nat.lt_of_le_of_lt hg hclip)
        have hposlen : pos < hist.length := by
          rw [hlen]; exact hc.1
        have hlen2 : (hist.set pos ((hist.getD pos 0 + 1) % U32)).length = 256 := by
          rw [List.length_set, hlen]
        have hbins2 : ∀ x ∈ hist.set pos ((hist.getD pos 0 + 1) % U32), x ≤ clip := by
          intro x hx
          rcases List.mem_or_eq_of_mem_set hx with hx2 | rfl
          · exact hbins x hx2
          · rw [hval]; exact hg
        have hsum2 : (hist.set pos ((hist.getD pos 0 + 1) % U32)).sum = hist.sum + 1 := by
          have hs := sum_set_add hist ((hist.getD pos 0 + 1) % U32) pos hposlen
          omega
        have heq : redistInner clip (fuel + 1) hist e pos step =
            redistInner clip fuel (hist.set pos ((hist.getD pos 0 + 1) % U32)) (e - 1)
              (pos + step) step := by
          simp only [redistInner, if_pos hc, if_pos hg]
        rw [heq]
        obtain ⟨h1, h2, h3, h4, _⟩ := ih (hist.set pos ((hist.getD pos 0 + 1) % U32))
          (e - 1) (pos + step) step hlen2 hbins2
        refine ⟨h1, h2, ?_, ?_, ?_⟩
        · rw [hsum2] at h3; omega
        · omega
        · intro habs
          omega
      · have heq : redistInner clip (fuel + 1) hist e pos step =
            redistInner clip fuel hist e (pos + step) step := by
          simp only [redistInner, if_pos hc, if_neg hg]
        rw [heq]
        exact ih hist e (pos + step) step hlen hbins
    · have heq : redistInner clip (fuel + 1) hist e pos step = (hist, e) := by
        simp only [redistInner, if_neg hc]
      rw [heq]
      exact ⟨hlen, hbins, rfl, Nat.le_refl e, fun _ => rfl⟩

theorem redistInner_progress (clip : Nat) (hclip : clip < U32)
    (fuel : Nat) (hist : List Nat) (e pos step : Nat)
    (hlen : hist.length = 256) (hbins : ∀ x ∈ hist, x ≤ clip)
    (hpos : pos < NUM_GRAY_LEVELS) (he : 0 < e) (hg : hist.getD pos 0 < clip) :
    (redistInner clip (fuel + 1) hist e pos step).2 < e := by
  have hval : (hist.getD pos 0 + 1) % U32 = hist.getD pos 0 + 1 :=
    Nat.mod_eq_of_lt (Nat.lt_of_le_of_lt hg hclip)
  have hlen2 : (hist.set pos ((hist.getD pos 0 + 1) % U32)).length = 256 := by
    rw [List.length_set, hlen]
  have hbins2 : ∀ x ∈ hist.set pos ((hist.getD pos 0 + 1) % U32), x ≤ clip := by
    intro x hx
    rcases List.mem_or_eq_of_mem_set hx with hx2 | rfl
    · exact hbins x hx2
    · rw [hval]; exact hg
  have heq : redistInner clip (fuel + 1) hist e pos step =
      redistInner clip fuel (hist.set pos ((hist.getD pos 0 + 1) % U32)) (e - 1)
        (pos + step) step := by
    simp only [redistInner, if_pos (And.intro hpos he), if_pos hg]
  rw [heq]
  obtain ⟨_, _, _, h4, _⟩ := redistInner_spec clip hclip fuel
    (hist.set pos ((hist.getD pos 0 + 1) % U32)) (e - 1) (pos + step) step hlen2 hbins2
  omega

theorem redistStarts_spec (clip : Nat) (hclip : clip < U32) :
    ∀ (fuel : Nat) (hist : List Nat) (e start : Nat),
      hist.length = 256 → (∀ x ∈ hist, x ≤ clip) →
      (redistStarts clip fuel hist e start).1.length = 256 ∧
      (∀ x ∈ (redistStarts clip fuel hist e start).1, x ≤ clip) ∧
      (redistStarts clip fuel hist e start).1.sum
        + (redistStarts clip fuel hist e start).2 = hist.sum + e ∧
      (redistStarts clip fuel hist e start).2 ≤ e ∧
      ((redistStarts clip fuel hist e start).2 = e →
        (redistStarts clip fuel hist e start).1 = hist) := by
  intro fuel
  induction fuel with
  | zero =>
    intro hist e start hlen hbins
    exact ⟨hlen, hbins, rfl, Nat.le_refl e, fun _ => rfl⟩
  | succ fuel ih =>
    intro hist e start hlen hbins
    by_cases hc : 0 < e ∧ start < NUM_GRAY_LEVELS
    · have heq : redistStarts clip (fuel + 1) hist e start =
          redistStarts clip fuel
            (redistInner clip NUM_GRAY_LEVELS hist e start (max (NUM_GRAY_LEVELS / e) 1)).1
            (redistInner clip NUM_GRAY_LEVELS hist e start (max (NUM_GRAY_LEVELS / e) 1)).2
            (start + 1) := by
        simp only [redistStarts, if_pos hc]
      rw [heq]
      obtain ⟨i1, i2, i3, i4, i5⟩ := redistInner_spec clip hclip NUM_GRAY_LEVELS hist e start
        (max (NUM_GRAY_LEVELS / e) 1) hlen hbins
      obtain ⟨s1, s2, s3, s4, s5⟩ := ih
        (redistInner clip NUM_GRAY_LEVELS hist e start (max (NUM_GRAY_LEVELS / e) 1)).1
        (redistInner clip NUM_GRAY_LEVELS hist e start (max (NUM_GRAY_LEVELS / e) 1)).2
        (start + 1) i1 i2
      refine ⟨s1, s2, by omega, by omega, ?_⟩
      intro hsame
      have hinner_same : (redistInner clip NUM_GRAY_LEVELS hist e start
          (max (NUM_GRAY_LEVELS / e) 1)).2 = e := by omega
      rw [s5 (by omega), i5 hinner_same]
    · have heq : redistStarts clip (fuel + 1) hist e start = (hist, e) := by
        simp only [redistStarts, if_neg hc]
      rw [heq]
      exact ⟨hlen, hbins, rfl, Nat.le_refl e, fun _ => rfl⟩

theorem redistStarts_progress (clip : Nat) (hclip : clip < U32) :
    ∀ (fuel : Nat) (hist : List Nat) (e start : Nat),
      hist.length = 256 → (∀ x ∈ hist, x ≤ clip) →
      NUM_GRAY_LEVELS - start ≤ fuel → 0 < e →
      (∃ i, start ≤ i ∧ i < NUM_GRAY_LEVELS ∧ hist.getD i 0 < clip) →
      (redistStarts clip fuel hist e start).2 < e := by
  intro fuel
  induction fuel with
  | zero =>
    intro hist e start hlen hbins hfuel he hex
    obtain ⟨i, hi1, hi2, _⟩ := hex
    omega
  | succ fuel ih =>
    intro hist e start hlen hbins hfuel he hex
    obtain ⟨i, hi1, hi2, hig⟩ := hex
    have hstart : start < NUM_GRAY_LEVELS := Nat.lt_of_le_of_lt hi1 hi2
    have hc : 0 < e ∧ start < NUM_GRAY_LEVELS := ⟨he, hstart⟩
    have heq : redistStarts clip (fuel + 1) hist e start =
        redistStarts clip fuel
          (redistInner clip NUM_GRAY_LEVELS hist e start (max (NUM_GRAY_LEVELS / e) 1)).1
          (redistInner clip NUM_GRAY_LEVELS hist e start (max (NUM_GRAY_LEVELS / e) 1)).2
          (start + 1) := by
      simp only [redistStarts, if_pos hc]
    rw [heq]
    obtain ⟨i1, i2, i3, i4, i5⟩ := redistInner_spec clip hclip NUM_GRAY_LEVELS hist e start
      (max (NUM_GRAY_LEVELS / e) 1) hlen hbins
    obtain ⟨s1, s2, s3, s4, s5⟩ := redistStarts_spec clip hclip fuel
      (redistInner clip NUM_GRAY_LEVELS hist e start (max (NUM_GRAY_LEVELS / e) 1)).1
      (redistInner clip NUM_GRAY_LEVELS hist e start (max (NUM_GRAY_LEVELS / e) 1)).2
      (start + 1) i1 i2
    by_cases hdec : (redistInner clip NUM_GRAY_LEVELS hist e start
        (max (NUM_GRAY_LEVELS / e) 1)).2 < e
    · omega
    · have hsame : (redistInner clip NUM_GRAY_LEVELS hist e start
          (max (NUM_GRAY_LEVELS / e) 1)).2 = e := by omega
      have hhist_same := i5 hsame
      by_cases his : i = start
      · subst his
        have hprog : (redistInner clip NUM_GRAY_LEVELS hist e i
            (max (NUM_GRAY_LEVELS / e) 1)).2 < e :=
          redistInner_progress clip hclip 255 hist e i (max (NUM_GRAY_LEVELS / e) 1)
            hlen hbins hi2 he hig
        omega
      · have hlater : ∃ j, start + 1 ≤ j ∧ j < NUM_GRAY_LEVELS ∧
            (redistInner clip NUM_GRAY_LEVELS hist e start
              (max (NUM_GRAY_LEVELS / e) 1)).1.getD j 0 < clip := by
          refine ⟨i, by omega, hi2, ?_⟩
          rw [hhist_same]
          exact hig
        have := ih (redistInner clip NUM_GRAY_LEVELS hist e start
            (max (NUM_GRAY_LEVELS / e) 1)).1
          (redistInner clip NUM_GRAY_LEVELS hist e start (max (NUM_GRAY_LEVELS / e) 1)).2
          (start + 1) i1 i2 (by omega) (by omega) hlater
        omega

theorem exists_low_bin (clip : Nat) :
    ∀ (l : List Nat), l.sum < l.length * clip → ∃ i, i < l.length ∧ l.getD i 0 < clip := by
  intro l
  induction l with
  | nil => intro h; simp at h
  | cons a t ih =>
    intro h
    simp only [List.sum_cons, List.length_cons] at h
    by_cases ha : a < clip
    · exact ⟨0, Nat.succ_pos _, ha⟩
    · have ht : t.sum < t.length * clip := by
        have : clip ≤ a := Nat.le_of_not_lt ha
        have hlen : (t.length + 1) * clip = t.length * clip + clip := by ring
        omega
      obtain ⟨i, hi1, hi2⟩ := ih ht
      exact ⟨i + 1, Nat.succ_lt_succ hi1, by simpa using hi2⟩

theorem redistStep_spec (clip : Nat) (hclip : clip < U32) (s : List Nat × Nat)
    (hlen : s.1.length = 256) (hbins : ∀ x ∈ s.1, x ≤ clip) :
    (redistStep clip s).1.length = 256 ∧
    (∀ x ∈ (redistStep clip s).1, x ≤ clip) ∧
    (redistStep clip s).1.sum + (redistStep clip s).2 = s.1.sum + s.2 ∧
    (redistStep clip s).2 ≤ s.2 := by
  by_cases hz : s.2 = 0
  · have heq : redistStep clip s = s := by simp [redistStep, hz]
    rw [heq]
    exact ⟨hlen, hbins, rfl, Nat.le_refl _⟩
  · have heq : redistStep clip s = redistStarts clip NUM_GRAY_LEVELS s.1 s.2 0 := by
      simp [redistStep, hz, redistPass]
    rw [heq]
    obtain ⟨h1, h2, h3, h4, _⟩ := redistStarts_spec clip hclip NUM_GRAY_LEVELS s.1 s.2 0 hlen hbins
    exact ⟨h1, h2, h3, h4⟩

theorem redistStep_progress (clip : Nat) (hclip : clip < U32) (s : List Nat × Nat)
    (hlen : s.1.length = 256) (hbins : ∀ x ∈ s.1, x ≤ clip)
    (he : 0 < s.2) (hcap : s.1.sum + s.2 ≤ 256 * clip) :
    (redistStep clip s).2 < s.2 := by
  have hsum : s.1.sum < 256 * clip := by omega
  obtain ⟨i, hi1, hi2⟩ := exists_low_bin clip s.1 (by rw [hlen]; exact hsum)
  have hz : s.2 ≠ 0 := by omega
  have heq : redistStep clip s = redistStarts clip NUM_GRAY_LEVELS s.1 s.2 0 := by
    simp [redistStep, hz, redistPass]
  rw [heq]
  exact redistStarts_progress clip hclip NUM_GRAY_LEVELS s.1 s.2 0 hlen hbins
    (Nat.le_refl _) he ⟨i, Nat.zero_le i, by rw [hlen] at hi1; exact hi1, hi2⟩

theorem redist_iterate_inv (clip : Nat) (hclip : clip < U32) :
    ∀ (n : Nat) (s : List Nat × Nat),
      s.1.length = 256 → (∀ x ∈ s.1, x ≤ clip) →
      ((redistStep clip)^[n] s).1.length = 256 ∧
      (∀ x ∈ ((redistStep clip)^[n] s).1, x ≤ clip) ∧
      ((redistStep clip)^[n] s).1.sum + ((redistStep clip)^[n] s).2 = s.1.sum + s.2 := by
  intro n
  induction n with
  | zero => intro s hlen hbins; exact ⟨hlen, hbins, rfl⟩
  | succ n ih =>
    intro s hlen hbins
    rw [Function.iterate_succ_apply]
    obtain ⟨h1, h2, h3, _⟩ := redistStep_spec clip hclip s hlen hbins
    obtain ⟨g1, g2, g3⟩ := ih (redistStep clip s) h1 h2
    exact ⟨g1, g2, by omega⟩

theorem redist_iterate_zero (clip : Nat) (hclip : clip < U32) :
    ∀ (n : Nat) (s : List Nat × Nat),
      s.1.length = 256 → (∀ x ∈ s.1, x ≤ clip) →
      s.1.sum + s.2 ≤ 256 * clip → s.2 ≤ n →
      ((redistStep clip)^[n] s).2 = 0 := by
  intro n
  induction n with
  | zero =>
    intro s hlen hbins hcap hn
    simpa using Nat.le_zero.mp hn
  | succ n ih =>
    intro s hlen hbins hcap hn
    rw [Function.iterate_succ_apply]
    by_cases hz : s.2 = 0
    · have heq : redistStep clip s = s := by simp [redistStep, hz]
      rw [heq]
      exact ih s hlen hbins hcap (by omega)
    · obtain ⟨h1, h2, h3, _⟩ := redistStep_spec clip hclip s hlen hbins
      have hprog := redistStep_progress clip hclip s hlen hbins (Nat.pos_of_ne_zero hz) hcap
      exact ih (redistStep clip s) h1 h2 (by omega) (by omega)

theorem usub32_eq_sub (a b : Nat) (hb : b ≤ a) (ha : a < U32) : usub32 a b = a - b := by
  unfold usub32
  have hbu : b % U32 = b := Nat.mod_eq_of_lt (Nat.lt_of_le_of_lt hb ha)
  rw [hbu]
  have h1 : a + (U32 - b) = U32 + (a - b) := by
    have : U32 ≥ b := by omega
    omega
  rw [h1, Nat.add_mod_left]
  exact Nat.mod_eq_of_lt (by omega)

theorem clipBinsGo_length (clip upper binIncr : Nat) :
    ∀ (l : List Nat) (e : Nat), (ClipBinsGo clip upper binIncr l e).1.length = l.length := by
  intro l
  induction l with
  | nil => intro e; rfl
  | cons h t ih =>
    intro e
    by_cases h1 : clip < h
    · simp only [ClipBinsGo, if_pos h1, List.length_cons, ih]
    · by_cases h2 : upper < h
      · simp only [ClipBinsGo, if_neg h1, if_pos h2, List.length_cons, ih]
      · simp only [ClipBinsGo, if_neg h1, if_neg h2, List.length_cons, ih]

theorem clipBinsGo_bins_le (clip upper binIncr : Nat)
    (hui : upper + binIncr ≤ clip) (hclip : clip < U32) :
    ∀ (l : List Nat) (e : Nat), ∀ x ∈ (ClipBinsGo clip upper binIncr l e).1, x ≤ clip := by
  intro l
  induction l with
  | nil => intro e x hx; simp [ClipBinsGo] at hx
  | cons h t ih =>
    intro e x hx
    by_cases h1 : clip < h
    · simp only [ClipBinsGo, if_pos h1, List.mem_cons] at hx
      rcases hx with rfl | hx
      · exact Nat.le_refl _
      · exact ih e x hx
    · by_cases h2 : upper < h
      · simp only [ClipBinsGo, if_neg h1, if_pos h2, List.mem_cons] at hx
        rcases hx with rfl | hx
        · exact Nat.le_refl _
        · exact ih _ x hx
      · simp only [ClipBinsGo, if_neg h1, if_neg h2, List.mem_cons] at hx
        rcases hx with rfl | hx
        · have hh : h ≤ upper := Nat.le_of_not_lt h2
          have hs : h + binIncr ≤ clip := by omega
          rw [Nat.mod_eq_of_lt (Nat.lt_of_le_of_lt hs hclip)]
          exact hs
        · exact ih _ x hx

theorem clipBinsGo_zero_spec (clip : Nat) :
    ∀ (l : List Nat) (e : Nat), (∀ x ∈ l, x < U32) →
      (ClipBinsGo clip clip 0 l e).2 = e ∧
      (ClipBinsGo clip clip 0 l e).1.sum + (l.map (fun h => h - clip)).sum = l.sum := by
  intro l
  induction l with
  | nil => intro e _; exact ⟨rfl, rfl⟩
  | cons h t ih =>
    intro e hb
    have hbt : ∀ x ∈ t, x < U32 := fun x hx => hb x (List.mem_cons_of_mem h hx)
    by_cases h1 : clip < h
    · obtain ⟨g1, g2⟩ := ih e hbt
      simp only [ClipBinsGo, if_pos h1, List.sum_cons, List.map_cons]
      refine ⟨g1, ?_⟩
      have : clip ≤ h := Nat.le_of_lt h1
      omega
    · have h2 : ¬ clip < h := h1
      obtain ⟨g1, g2⟩ := ih (e - 0) hbt
      simp only [ClipBinsGo, if_neg h1, if_neg h2, List.sum_cons, List.map_cons]
      have hhU : h < U32 := hb h (List.mem_cons_self h t)
      have hmod : (h + 0) % U32 = h := by
        rw [Nat.add_zero]
        exact Nat.mod_eq_of_lt hhU
      rw [hmod]
      have hsub : h - clip = 0 := Nat.sub_eq_zero_of_le (Nat.le_of_not_lt h1)
      refine ⟨g1, ?_⟩
      omega

theorem map_sub_sum_le (clip : Nat) :
    ∀ (l : List Nat), (l.map (fun h => h - clip)).sum ≤ l.sum ∧
      (0 < clip → 0 < l.sum → (l.map (fun h => h - clip)).sum < l.sum) := by
  intro l
  induction l with
  | nil => exact ⟨Nat.le_refl _, fun _ h => absurd h (by simp)⟩
  | cons h t ih =>
    simp only [List.map_cons, List.sum_cons]
    obtain ⟨ih1, ih2⟩ := ih
    constructor
    · have : h - clip ≤ h := Nat.sub_le h clip
      omega
    · intro hc hpos
      by_cases hh : 0 < h
      · have : h - clip < h := Nat.sub_lt hh hc
        omega
      · have hh0 : h = 0 := by omega
        subst hh0
        have htpos : 0 < t.sum := by simpa using hpos
        have := ih2 hc htpos
        omega

theorem clipExcess_eq (hist : List Nat) (clip : Nat) (hc : 0 < clip)
    (hsum : hist.sum ≤ U32) :
    clipExcess hist clip = (hist.map (fun h => h - clip)).sum := by
  unfold clipExcess
  obtain ⟨h1, h2⟩ := map_sub_sum_le clip hist
  apply Nat.mod_eq_of_lt
  by_cases hpos : 0 < hist.sum
  · exact Nat.lt_of_lt_of_le (h2 hc hpos) hsum
  · have : hist.sum = 0 := by omega
    have hz : (hist.map (fun h => h - clip)).sum = 0 := by omega
    rw [hz]
    simp [U32]

set_option maxRecDepth 8000 in
/-- C5 counterexample: the 256-bin histogram `(4294967295, 1, 0, …, 0)` with
pixel count 1 satisfies the claim's hypotheses, yet the mapping decreases:
entry 0 is 255 while entry 1 is 0, because the 32-bit running sum `HistoSum`
wraps to 0 at gray level 1.  So monotonicity is false over the claim's full
domain. -/
theorem claim_C5_counterexample :
    (4294967295 :: 1 :: List.replicate 254 0 : List Nat).length = 256 ∧
    0 < 1 ∧
    ¬ ((MapHistogram (4294967295 :: 1 :: List.replicate 254 0) 1).getD 0 0
        ≤ (MapHistogram (4294967295 :: 1 :: List.replicate 254 0) 1).getD 1 0) := by
  decide

/-- C5 amended: for every 256-bin histogram whose bin total is below `2^32`
(so the 32-bit running sum `HistoSum` cannot wrap — true of every histogram
`MakeHistogram` produces, whose total is the tile's pixel count) and every
positive pixel count, after `MapHistogram` returns, the 256 output entries
are non-decreasing in gray-level index and each entry is at most 255.
Without the bound the wrap drops the cumulative sum back toward zero and the
mapping decreases. -/
theorem claim_C5_amended (hist : List Nat) (numPixels : Nat)
    (hlen : hist.length = 256) (hpos : 0 < numPixels) (hnw : hist.sum < U32) :
    (MapHistogram hist numPixels).length = 256 ∧
    (∀ i j, i ≤ j → j < 256 →
      (MapHistogram hist numPixels).getD i 0 ≤ (MapHistogram hist numPixels).getD j 0) ∧
    (∀ x ∈ MapHistogram hist numPixels, x ≤ 255) := by
  have hlen2 : (MapHistogram hist numPixels).length = 256 := by
    rw [MapHistogram, mapHistogramGo_length, hlen]
  refine ⟨hlen2, ?_, ?_⟩
  · intro i j hij hj
    exact mapHistogram_getD_mono hist numPixels i j hnw hij (by rw [hlen2]; exact hj)
  · exact mapHistogramGo_le255 numPixels hist 0

set_option maxRecDepth 8000 in
/-- Witness for the amended C5 at a concrete histogram and pixel count. -/
theorem claim_C5_witness :
    ((List.replicate 256 1 : List Nat).length = 256 ∧ 0 < 256 ∧
       (List.replicate 256 1 : List Nat).sum < U32) ∧
    ((MapHistogram (List.replicate 256 1) 256).length = 256 ∧
     (∀ i j, i ≤ j → j < 256 →
       (MapHistogram (List.replicate 256 1) 256).getD i 0 ≤
         (MapHistogram (List.replicate 256 1) 256).getD j 0) ∧
     (∀ x ∈ MapHistogram (List.replicate 256 1) 256, x ≤ 255)) :=
  ⟨by decide,
    claim_C5_amended (List.replicate 256 1) 256 (by decide) (by decide) (by decide)⟩

set_option maxRecDepth 8000 in
/-- C3 counterexample: the histogram with bins `(522, 10, 0, …, 0)` and clip
limit 10 (≥ 1) loses two pixels in `ClipHistogram`: the output sums to 530
while the input sums to 532, so the conservation half of the claim is false.
(The excess counter is debited `bin - upper` for a bin in `(upper, clip]`
while the bin only gains `clip - bin`.) -/
theorem claim_C3_counterexample :
    (522 :: 10 :: List.replicate 254 0 : List Nat).length = 256 ∧ (1 : Nat) ≤ 10 ∧
    (ClipHistogram (522 :: 10 :: List.replicate 254 0) 10).sum ≠
      (522 :: 10 :: List.replicate 254 0 : List Nat).sum := by
  refine ⟨by decide, by decide, by decide⟩

/-- C3 amended: for every 256-bin histogram and clip limit with `1 ≤ clip ≤
2^24`, **provided** the histogram total is at most `256 * clip` and the total
excess is below 256 (so the pre-distributed per-bin increment
`excess / 256` is zero), `ClipHistogram` conserves the total and leaves no
bin above the clip limit.  (The counterexample shows conservation fails as
soon as the per-bin increment is nonzero and a bin lies strictly between
`clip - binIncr` and `clip`.) -/
theorem claim_C3_amended (hist : List Nat) (clip : Nat)
    (hlen : hist.length = 256) (hc : 1 ≤ clip) (hcs : clip ≤ 2 ^ 24)
    (hsum : hist.sum ≤ 256 * clip) (hex : clipExcess hist clip < 256) :
    (ClipHistogram hist clip).sum = hist.sum ∧
    (∀ x ∈ ClipHistogram hist clip, x ≤ clip) := by
  have hU : clip < U32 := by
    have : (2 : Nat) ^ 24 < U32 := by decide
    omega
  have hsU : hist.sum ≤ U32 := by
    have : 256 * clip ≤ 256 * 2 ^ 24 := Nat.mul_le_mul_left 256 hcs
    have h2 : 256 * 2 ^ 24 = U32 := by decide
    omega
  have he0 : clipExcess hist clip = (hist.map (fun h => h - clip)).sum :=
    clipExcess_eq hist clip (by omega) hsU
  have hbin0 : clipExcess hist clip / NUM_GRAY_LEVELS = 0 :=
    Nat.div_eq_of_lt (by exact hex)
  have hphase : clipPhase2 hist clip = ClipBinsGo clip clip 0 hist (clipExcess hist clip) := by
    simp only [clipPhase2, hbin0]
    rw [usub32_eq_sub clip 0 (Nat.zero_le clip) hU, Nat.sub_zero]
  have hbinsU : ∀ x ∈ hist, x < U32 := by
    intro x hx
    by_contra hge
    have hxU : U32 ≤ x := Nat.le_of_not_lt hge
    have hmem : x - clip ∈ hist.map (fun h => h - clip) := List.mem_map_of_mem _ hx
    have hle : x - clip ≤ (hist.map (fun h => h - clip)).sum :=
      List.single_le_sum (fun y _ => Nat.zero_le y) _ hmem
    have hU32val : U32 = 4294967296 := rfl
    omega
  obtain ⟨hz1, hz2⟩ := clipBinsGo_zero_spec clip hist (clipExcess hist clip) hbinsU
  have hsub_le : (hist.map (fun h => h - clip)).sum ≤ hist.sum := (map_sub_sum_le clip hist).1
  have hlen2 : (clipPhase2 hist clip).1.length = 256 := by
    rw [hphase, clipBinsGo_length, hlen]
  have hbins2 : ∀ x ∈ (clipPhase2 hist clip).1, x ≤ clip := by
    rw [hphase]
    exact clipBinsGo_bins_le clip clip 0 (by omega) hU hist (clipExcess hist clip)
  have hsum2 : (clipPhase2 hist clip).1.sum + (clipPhase2 hist clip).2 = hist.sum := by
    rw [hphase, hz1]
    omega
  have hcap : (clipPhase2 hist clip).1.sum + (clipPhase2 hist clip).2 ≤ 256 * clip := by
    omega
  obtain ⟨g1, g2, g3⟩ := redist_iterate_inv clip hU ((clipPhase2 hist clip).2)
    (clipPhase2 hist clip) hlen2 hbins2
  have gz := redist_iterate_zero clip hU ((clipPhase2 hist clip).2)
    (clipPhase2 hist clip) hlen2 hbins2 hcap (Nat.le_refl _)
  constructor
  · show ((redistStep clip)^[(clipPhase2 hist clip).2] (clipPhase2 hist clip)).1.sum = hist.sum
    omega
  · show ∀ x ∈ ((redistStep clip)^[(clipPhase2 hist clip).2] (clipPhase2 hist clip)).1, x ≤ clip
    exact g2

set_option maxRecDepth 8000 in
/-- Witness for the amended C3 at a concrete histogram `(5, 0, …, 0)` with
clip limit 2 (excess 3 < 256). -/
theorem claim_C3_witness :
    ((5 :: List.replicate 255 0 : List Nat).length = 256 ∧ (1 : Nat) ≤ 2 ∧
      (2 : Nat) ≤ 2 ^ 24 ∧ (5 :: List.replicate 255 0 : List Nat).sum ≤ 256 * 2 ∧
      clipExcess (5 :: List.replicate 255 0) 2 < 256) ∧
    ((ClipHistogram (5 :: List.replicate 255 0) 2).sum =
        (5 :: List.replicate 255 0 : List Nat).sum ∧
      (∀ x ∈ ClipHistogram (5 :: List.replicate 255 0) 2, x ≤ 2)) :=
  ⟨by decide, claim_C3_amended (5 :: List.replicate 255 0) 2
    (by decide) (by decide) (by decide) (by decide) (by decide)⟩

set_option maxRecDepth 8000 in
/-- C4 counterexample: the histogram `(65022, 2, 0, …, 0)` with clip limit
254 satisfies the claimed precondition — its total is `65024 = 256 * 254` —
yet the redistribution loop never reaches zero remaining excess: after the
clip-and-predistribute pass the bin total plus remaining excess is
`64770 + 505 = 65275 > 256 * 254`, the pass preserves that sum while bins
are capped at the clip limit, so at least 251 units of excess remain forever
and the C `while (ulNrExcess)` loop spins. -/
theorem claim_C4_counterexample :
    (65022 :: 2 :: List.replicate 254 0 : List Nat).length = 256 ∧
    (1 : Nat) ≤ 254 ∧
    (65022 :: 2 :: List.replicate 254 0 : List Nat).sum ≤ 256 * 254 ∧
    ¬ ∃ n : Nat,
      ((redistStep 254)^[n] (clipPhase2 (65022 :: 2 :: List.replicate 254 0) 254)).2 = 0 := by
  refine ⟨by decide, by decide, by decide, ?_⟩
  rintro ⟨n, hn⟩
  have hbase : (clipPhase2 (65022 :: 2 :: List.replicate 254 0) 254).1.length = 256 ∧
      (∀ x ∈ (clipPhase2 (65022 :: 2 :: List.replicate 254 0) 254).1, x ≤ 254) ∧
      (clipPhase2 (65022 :: 2 :: List.replicate 254 0) 254).1.sum = 64770 ∧
      (clipPhase2 (65022 :: 2 :: List.replicate 254 0) 254).2 = 505 := by decide
  obtain ⟨hl, hb, hs, he⟩ := hbase
  have hU : (254 : Nat) < U32 := by decide
  obtain ⟨g1, g2, g3⟩ := redist_iterate_inv 254 hU n
    (clipPhase2 (65022 :: 2 :: List.replicate 254 0) 254) hl hb
  have hsum_le : ((redistStep 254)^[n]
      (clipPhase2 (65022 :: 2 :: List.replicate 254 0) 254)).1.sum ≤ 256 * 254 := by
    have := List.sum_le_card_nsmul
      ((redistStep 254)^[n] (clipPhase2 (65022 :: 2 :: List.replicate 254 0) 254)).1 254 g2
    rw [g1] at this
    simpa [smul_eq_mul] using this
  omega

/-- C4 amended: the redistribution loop does terminate — reaches zero
remaining excess — for every 256-bin histogram and clip limit with
`1 ≤ clip ≤ 2^24` whose total is at most `256 * clip`, **provided
additionally** that after the clip-and-predistribute pass the bin total plus
the remaining excess is still at most `256 * clip` (the original
precondition alone fails to guarantee this as soon as `excess / 256 ≥ 3` and
some bin lies just above `clip - excess / 256`, as the counterexample
shows). -/
theorem claim_C4_amended (hist : List Nat) (clip : Nat)
    (hlen : hist.length = 256) (hc : 1 ≤ clip) (hcs : clip ≤ 2 ^ 24)
    (hsum : hist.sum ≤ 256 * clip)
    (hcap : (clipPhase2 hist clip).1.sum + (clipPhase2 hist clip).2 ≤ 256 * clip) :
    ∃ n : Nat, ((redistStep clip)^[n] (clipPhase2 hist clip)).2 = 0 := by
  have hU : clip < U32 := by
    have : (2 : Nat) ^ 24 < U32 := by decide
    omega
  have hsU : hist.sum ≤ U32 := by
    have : 256 * clip ≤ 256 * 2 ^ 24 := Nat.mul_le_mul_left 256 hcs
    have h2 : 256 * 2 ^ 24 = U32 := by decide
    omega
  have he0 : clipExcess hist clip = (hist.map (fun h => h - clip)).sum :=
    clipExcess_eq hist clip (by omega) hsU
  have he0_le : clipExcess hist clip ≤ 256 * clip := by
    have := (map_sub_sum_le clip hist).1
    omega
  have hbinIncr : clipExcess hist clip / NUM_GRAY_LEVELS ≤ clip := by
    have h1 : clipExcess hist clip / 256 ≤ (256 * clip) / 256 :=
      Nat.div_le_div_right he0_le
    have h2 : (256 * clip) / 256 = clip := Nat.mul_div_cancel_left clip (by omega)
    have h3 : NUM_GRAY_LEVELS = 256 := rfl
    rw [h3]
    omega
  have hupper : usub32 clip (clipExcess hist clip / NUM_GRAY_LEVELS)
      = clip - clipExcess hist clip / NUM_GRAY_LEVELS :=
    usub32_eq_sub clip _ hbinIncr hU
  have hphase : clipPhase2 hist clip =
      ClipBinsGo clip (clip - clipExcess hist clip / NUM_GRAY_LEVELS)
        (clipExcess hist clip / NUM_GRAY_LEVELS) hist (clipExcess hist clip) := by
    simp only [clipPhase2]
    rw [hupper]
  have hlen2 : (clipPhase2 hist clip).1.length = 256 := by
    rw [hphase, clipBinsGo_length, hlen]
  have hbins2 : ∀ x ∈ (clipPhase2 hist clip).1, x ≤ clip := by
    rw [hphase]
    exact clipBinsGo_bins_le clip _ _ (by omega) hU hist (clipExcess hist clip)
  exact ⟨(clipPhase2 hist clip).2,
    redist_iterate_zero clip hU ((clipPhase2 hist clip).2) (clipPhase2 hist clip)
      hlen2 hbins2 hcap (Nat.le_refl _)⟩

set_option maxRecDepth 8000 in
/-- Witness for the amended C4 at the concrete histogram `(5, 0, …, 0)` with
clip limit 2. -/
theorem claim_C4_witness :
    ((5 :: List.replicate 255 0 : List Nat).length = 256 ∧ (1 : Nat) ≤ 2 ∧
      (2 : Nat) ≤ 2 ^ 24 ∧ (5 :: List.replicate 255 0 : List Nat).sum ≤ 256 * 2 ∧
      (clipPhase2 (5 :: List.replicate 255 0) 2).1.sum
        + (clipPhase2 (5 :: List.replicate 255 0) 2).2 ≤ 256 * 2) ∧
    (∃ n : Nat, ((redistStep 2)^[n] (clipPhase2 (5 :: List.replicate 255 0) 2)).2 = 0) :=
  ⟨by decide, claim_C4_amended (5 :: List.replicate 255 0) 2
    (by decide) (by decide) (by decide) (by decide) (by decide)⟩

/-! ## `Interpolate` lemmas (claim C10) -/

theorem testBit_true_of_between (m k : Nat) (h1 : 2 ^ k ≤ m) (h2 : m < 2 ^ (k + 1)) :
    m.testBit k = true := by
  rw [Nat.testBit_to_div_mod]
  have hps : 2 ^ (k + 1) = 2 * 2 ^ k := by
    rw [Nat.pow_succ]; ring
  have hpos : 0 < 2 ^ k := Nat.pos_pow_of_pos k (by omega)
  have hdiv : m / 2 ^ k = 1 := Nat.div_eq_of_lt_le (by omega) (by omega)
  simp [hdiv]

theorem pow2_of_land_eq_zero (n : Nat) (hn : 1 ≤ n) (h : n &&& (n - 1) = 0) :
    n = 2 ^ Nat.log 2 n := by
  have hne : n ≠ 0 := by omega
  have h1 : 2 ^ Nat.log 2 n ≤ n := Nat.pow_log_le_self 2 hne
  have h2 : n < 2 ^ (Nat.log 2 n + 1) := Nat.lt_pow_succ_log_self (by omega) n
  by_contra hne2
  have hgt : 2 ^ Nat.log 2 n < n := by omega
  have hb1 : n.testBit (Nat.log 2 n) = true := testBit_true_of_between n _ h1 h2
  have hb2 : (n - 1).testBit (Nat.log 2 n) = true :=
    testBit_true_of_between (n - 1) _ (by omega) (by omega)
  have : (n &&& (n - 1)).testBit (Nat.log 2 n) = true := by
    rw [Nat.testBit_land, hb1, hb2]
    rfl
  rw [h, Nat.zero_testBit] at this
  exact Bool.false_ne_true this

theorem shiftIndexGo_pow :
    ∀ (k fuel acc : Nat), k < fuel → shiftIndexGo fuel (2 ^ k) acc = acc + k := by
  intro k
  induction k with
  | zero =>
    intro fuel acc hf
    obtain ⟨f, rfl⟩ : ∃ f, fuel = f + 1 := ⟨fuel - 1, by omega⟩
    simp [shiftIndexGo]
  | succ k ih =>
    intro fuel acc hf
    obtain ⟨f, rfl⟩ : ∃ f, fuel = f + 1 := ⟨fuel - 1, by omega⟩
    have hdiv : 2 ^ (k + 1) / 2 = 2 ^ k := by
      rw [Nat.pow_succ]
      exact Nat.mul_div_cancel _ (by omega)
    have hne : ¬ (2 ^ k = 0) := by
      have := Nat.pos_pow_of_pos k (show 0 < 2 by omega)
      omega
    simp only [shiftIndexGo, hdiv, if_neg hne]
    rw [ih f (acc + 1) (by omega)]
    omega

theorem shiftIndexOf_pow (k : Nat) (hk : k ≤ 31) : shiftIndexOf (2 ^ k) = k := by
  unfold shiftIndexOf
  rw [shiftIndexGo_pow k 32 0 (by omega)]
  omega

theorem interpVal_const (T : List Nat) (MW MH x y g : Nat)
    (hTb : ∀ t ∈ T, t ≤ 255) (hx : x < MW) (hy : y < MH) (harea : MW * MH ≤ 2 ^ 24) :
    interpVal T T T T MW MH x y g = T.getD g 0 := by
  have ht : T.getD g 0 ≤ 255 := getD_le_of_all T 255 hTb g
  have hnum : (MH - y) * ((MW - x) * T.getD g 0 + x * T.getD g 0)
      + y * ((MW - x) * T.getD g 0 + x * T.getD g 0) = (MW * MH) * T.getD g 0 := by
    have hxs : MW - x + x = MW := Nat.sub_add_cancel (Nat.le_of_lt hx)
    have hys : MH - y + y = MH := Nat.sub_add_cancel (Nat.le_of_lt hy)
    calc (MH - y) * ((MW - x) * T.getD g 0 + x * T.getD g 0)
        + y * ((MW - x) * T.getD g 0 + x * T.getD g 0)
      = ((MH - y) + y) * (((MW - x) + x) * T.getD g 0) := by ring
    _ = MH * (MW * T.getD g 0) := by rw [hxs, hys]
    _ = (MW * MH) * T.getD g 0 := by ring
  have hpos : 0 < MW * MH := Nat.mul_pos (by omega) (by omega)
  have hlt : (MW * MH) * T.getD g 0 + (MW * MH) / 2 < U32 := by
    have h1 : (MW * MH) * T.getD g 0 ≤ (MW * MH) * 255 := Nat.mul_le_mul_left _ ht
    have h2 : (MW * MH) / 2 < MW * MH := Nat.div_lt_self hpos (by omega)
    have h3 : (MW * MH) * 255 + MW * MH = (MW * MH) * 256 := by ring
    have h4 : (MW * MH) * 256 ≤ 2 ^ 24 * 256 := Nat.mul_le_mul_right 256 harea
    have h5 : (2 : Nat) ^ 24 * 256 = U32 := by decide
    omega
  unfold interpVal
  simp only [hnum]
  by_cases hp2 : MW * MH &&& (MW * MH - 1) = 0
  · rw [if_pos hp2]
    have harea2 : MW * MH = 2 ^ Nat.log 2 (MW * MH) :=
      pow2_of_land_eq_zero (MW * MH) hpos hp2
    have hklog : Nat.log 2 (MW * MH) ≤ 31 := by
      by_contra hgt
      have h32 : 32 ≤ Nat.log 2 (MW * MH) := by omega
      have : (2 : Nat) ^ 32 ≤ 2 ^ Nat.log 2 (MW * MH) :=
        Nat.pow_le_pow_right (by omega) h32
      have hU : (2 : Nat) ^ 32 = U32 := by decide
      have h24 : (2 : Nat) ^ 24 < U32 := by decide
      omega
    have hmod : (MW * MH) * T.getD g 0 % U32 = (MW * MH) * T.getD g 0 :=
      Nat.mod_eq_of_lt (by omega)
    rw [hmod]
    conv_lhs => rw [harea2]
    rw [shiftIndexOf_pow _ hklog, Nat.shiftRight_eq_div_pow,
      Nat.mul_div_cancel_left _ (Nat.pos_pow_of_pos _ (by omega))]
    exact Nat.mod_eq_of_lt (by omega)
  · rw [if_neg hp2]
    have hmod : ((MW * MH) * T.getD g 0 + (MW * MH) / 2) % U32
        = (MW * MH) * T.getD g 0 + (MW * MH) / 2 := Nat.mod_eq_of_lt hlt
    rw [hmod, Nat.mul_add_div hpos,
      Nat.div_eq_of_lt (Nat.div_lt_self hpos (by omega)), Nat.add_zero]
    exact Nat.mod_eq_of_lt (by omega)

set_option maxRecDepth 8000 in
/-- C10 counterexample: for a block of positive width `2^25` and height 1
with all four mapping pointers equal to the all-255 table, the pixel holding
original value 0 is rewritten to 127, not `table[0] = 255`: the 32-bit
product `2^25 * 255` wraps around, so the claim fails for blocks whose area
makes the weighted sum exceed 32 bits. -/
theorem claim_C10_counterexample :
    (1 : Nat) ≤ 2 ^ 25 ∧ (1 : Nat) ≤ 1 ∧
    (∀ t ∈ (List.replicate 256 255 : List Nat), t ≤ 255) ∧
    Interpolate (2 ^ 25) (fun _ => 0) 0 (List.replicate 256 255)
      (List.replicate 256 255) (List.replicate 256 255) (List.replicate 256 255)
      (2 ^ 25) 1 0 = 127 ∧
    (127 : Nat) ≠ (List.replicate 256 255 : List Nat).getD 0 0 := by
  refine ⟨by decide, by decide, by decide, by decide, by decide⟩

/-- C10 amended: for every block with positive width and height whose area
is at most `2^24` (so the weighted sums fit in 32-bit unsigned arithmetic),
and every mapping table whose entries are all at most 255, calling
`Interpolate` with all four mapping pointers equal to that table rewrites
each block pixel holding original value `g` to exactly `table[g]`, in both
the power-of-two right-shift path and the division path. -/
theorem claim_C10_amended (OW : Nat) (img : Nat → Nat) (base : Nat) (T : List Nat)
    (MatrixWidth MatrixHeight p : Nat)
    (hTb : ∀ t ∈ T, t ≤ 255) (hw : 1 ≤ MatrixWidth) (hh : 1 ≤ MatrixHeight)
    (harea : MatrixWidth * MatrixHeight ≤ 2 ^ 24)
    (hbase : base ≤ p) (hx : (p - base) % OW < MatrixWidth)
    (hy : (p - base) / OW < MatrixHeight) :
    Interpolate OW img base T T T T MatrixWidth MatrixHeight p = T.getD (img p) 0 := by
  unfold Interpolate
  rw [if_pos ⟨hbase, hx, hy⟩]
  exact interpVal_const T MatrixWidth MatrixHeight _ _ (img p) hTb hx hy harea

set_option maxRecDepth 8000 in
/-- Witness for the amended C10: a 2×2 block over a stride-4 image with the
all-7 table maps the pixel holding value 3 to `table[3] = 7`. -/
theorem claim_C10_witness :
    ((∀ t ∈ (List.replicate 256 7 : List Nat), t ≤ 255) ∧ (1 : Nat) ≤ 2 ∧ (1 : Nat) ≤ 2 ∧
      (2 : Nat) * 2 ≤ 2 ^ 24 ∧ (0 : Nat) ≤ 0 ∧ (0 - 0 : Nat) % 4 < 2 ∧ (0 - 0 : Nat) / 4 < 2) ∧
    Interpolate 4 (fun _ => 3) 0 (List.replicate 256 7) (List.replicate 256 7)
      (List.replicate 256 7) (List.replicate 256 7) 2 2 0 =
      (List.replicate 256 7 : List Nat).getD ((fun _ => 3) 0) 0 :=
  ⟨by decide, claim_C10_amended 4 (fun _ => 3) 0 (List.replicate 256 7) 2 2 0
    (by decide) (by decide) (by decide) (by decide) (by decide) (by decide) (by decide)⟩

/-! ## Interpolation-block coverage lemmas (claim C6) -/

theorem sum_map_mul_right_nat (l : List Nat) (f : Nat → Nat) (b : Nat) :
    (l.map (fun x => f x * b)).sum = (l.map f).sum * b := by
  induction l with
  | nil => simp
  | cons a t ih => simp [ih, Nat.add_mul]

theorem sum_range_uiSubX_inner (c : AltaCfg) (h1 : 1 ≤ c.NumHorRegions) :
    ((List.range c.NumHorRegions).map (uiSubX c)).sum
      = RegionWidth c / 2 + (c.NumHorRegions - 1) * RegionWidth c := by
  obtain ⟨m, hm⟩ : ∃ m, c.NumHorRegions = m + 1 := ⟨c.NumHorRegions - 1, by omega⟩
  rw [hm, List.range_succ_eq_map]
  simp only [List.map_cons, List.map_map, List.sum_cons]
  have h0 : uiSubX c 0 = RegionWidth c / 2 := by
    simp [uiSubX]
  have hmid : (List.range m).map (uiSubX c ∘ Nat.succ) =
      (List.range m).map (fun _ => RegionWidth c) := by
    apply List.map_congr_left
    intro k hk
    have hkm : k < m := List.mem_range.mp hk
    have hne0 : ¬ (k + 1 = 0) := by omega
    have hnen : ¬ (k + 1 = c.NumHorRegions) := by omega
    simp [Function.comp, uiSubX, hne0, hnen]
  rw [h0, hmid]
  have hconst : ((List.range m).map (fun _ => RegionWidth c)).sum = m * RegionWidth c := by
    induction m with
    | zero => simp
    | succ n ihn =>
      rw [List.range_succ, List.map_append, List.sum_append]
      simp [ihn, Nat.succ_mul]
  rw [hconst]
  have hmm : m + 1 - 1 = m := rfl
  rw [hmm]

theorem sum_range_uiSubY_inner (c : AltaCfg) (h1 : 1 ≤ c.NumVertRegions) :
    ((List.range c.NumVertRegions).map (uiSubY c)).sum
      = RegionHeight c / 2 + (c.NumVertRegions - 1) * RegionHeight c := by
  obtain ⟨m, hm⟩ : ∃ m, c.NumVertRegions = m + 1 := ⟨c.NumVertRegions - 1, by omega⟩
  rw [hm, List.range_succ_eq_map]
  simp only [List.map_cons, List.map_map, List.sum_cons]
  have h0 : uiSubY c 0 = RegionHeight c / 2 := by
    simp [uiSubY]
  have hmid : (List.range m).map (uiSubY c ∘ Nat.succ) =
      (List.range m).map (fun _ => RegionHeight c) := by
    apply List.map_congr_left
    intro k hk
    have hkm : k < m := List.mem_range.mp hk
    have hne0 : ¬ (k + 1 = 0) := by omega
    have hnen : ¬ (k + 1 = c.NumVertRegions) := by omega
    simp [Function.comp, uiSubY, hne0, hnen]
  rw [h0, hmid]
  have hconst : ((List.range m).map (fun _ => RegionHeight c)).sum = m * RegionHeight c := by
    induction m with
    | zero => simp
    | succ n ihn =>
      rw [List.range_succ, List.map_append, List.sum_append]
      simp [ihn, Nat.succ_mul]
  rw [hconst]
  have hmm : m + 1 - 1 = m := rfl
  rw [hmm]

theorem sum_uiSubX_total (c : AltaCfg) (h1 : 1 ≤ c.NumHorRegions)
    (heven : RegionWidth c % 2 = 0) :
    ((List.range (c.NumHorRegions + 1)).map (uiSubX c)).sum = c.OriginalImageWidth := by
  rw [List.range_succ, List.map_append, List.sum_append,
    sum_range_uiSubX_inner c h1]
  have hlast : uiSubX c c.NumHorRegions
      = RegionWidth c / 2 + (c.OriginalImageWidth - ImageWidth c) := by
    have hne0 : ¬ (c.NumHorRegions = 0) := by omega
    by_cases hz : c.NumHorRegions = 0
    · omega
    · simp [uiSubX, hz]
  have hmul : (c.NumHorRegions - 1) * RegionWidth c + RegionWidth c
      = c.NumHorRegions * RegionWidth c := by
    obtain ⟨m, hm⟩ : ∃ m, c.NumHorRegions = m + 1 := ⟨c.NumHorRegions - 1, by omega⟩
    rw [hm]
    have hmm : m + 1 - 1 = m := rfl
    rw [hmm, Nat.succ_mul]
  have hIW : ImageWidth c = RegionWidth c * c.NumHorRegions := rfl
  have hle : RegionWidth c * c.NumHorRegions ≤ c.OriginalImageWidth := by
    rw [RegionWidth]
    exact Nat.div_mul_le_self _ _
  simp only [List.map_cons, List.sum_cons, List.map_nil, List.sum_nil]
  rw [hlast]
  have hcomm : c.NumHorRegions * RegionWidth c = RegionWidth c * c.NumHorRegions :=
    Nat.mul_comm _ _
  omega

theorem sum_uiSubY_total (c : AltaCfg) (h1 : 1 ≤ c.NumVertRegions)
    (heven : RegionHeight c % 2 = 0) :
    ((List.range (c.NumVertRegions + 1)).map (uiSubY c)).sum = c.OriginalImageHeight := by
  rw [List.range_succ, List.map_append, List.sum_append,
    sum_range_uiSubY_inner c h1]
  have hlast : uiSubY c c.NumVertRegions
      = RegionHeight c / 2 + (c.OriginalImageHeight - ImageHeight c) := by
    by_cases hz : c.NumVertRegions = 0
    · omega
    · simp [uiSubY, hz]
  have hmul : (c.NumVertRegions - 1) * RegionHeight c + RegionHeight c
      = c.NumVertRegions * RegionHeight c := by
    obtain ⟨m, hm⟩ : ∃ m, c.NumVertRegions = m + 1 := ⟨c.NumVertRegions - 1, by omega⟩
    rw [hm]
    have hmm : m + 1 - 1 = m := rfl
    rw [hmm, Nat.succ_mul]
  have hIH : ImageHeight c = RegionHeight c * c.NumVertRegions := rfl
  have hle : RegionHeight c * c.NumVertRegions ≤ c.OriginalImageHeight := by
    rw [RegionHeight]
    exact Nat.div_mul_le_self _ _
  simp only [List.map_cons, List.sum_cons, List.map_nil, List.sum_nil]
  rw [hlast]
  have hcomm : c.NumVertRegions * RegionHeight c = RegionHeight c * c.NumVertRegions :=
    Nat.mul_comm _ _
  omega

theorem blockAreasTotal_eq_mul (c : AltaCfg) :
    blockAreasTotal c = ((List.range (c.NumHorRegions + 1)).map (uiSubX c)).sum
      * ((List.range (c.NumVertRegions + 1)).map (uiSubY c)).sum := by
  unfold blockAreasTotal
  have hrow : ∀ uiY, ((List.range (c.NumHorRegions + 1)).map (fun uiX =>
      uiSubX c uiX * uiSubY c uiY)).sum
      = ((List.range (c.NumHorRegions + 1)).map (uiSubX c)).sum * uiSubY c uiY := by
    intro uiY
    exact sum_map_mul_right_nat _ _ _
  calc ((List.range (c.NumVertRegions + 1)).map (fun uiY =>
        ((List.range (c.NumHorRegions + 1)).map (fun uiX =>
          uiSubX c uiX * uiSubY c uiY)).sum)).sum
      = ((List.range (c.NumVertRegions + 1)).map (fun uiY =>
        ((List.range (c.NumHorRegions + 1)).map (uiSubX c)).sum * uiSubY c uiY)).sum := by
        apply congrArg
        exact List.map_congr_left (fun uiY _ => hrow uiY)
    _ = ((List.range (c.NumVertRegions + 1)).map (fun uiY => uiSubY c uiY
          * ((List.range (c.NumHorRegions + 1)).map (uiSubX c)).sum)).sum := by
        apply congrArg
        apply List.map_congr_left
        intro uiY _
        exact Nat.mul_comm _ _
    _ = ((List.range (c.NumVertRegions + 1)).map (uiSubY c)).sum
          * ((List.range (c.NumHorRegions + 1)).map (uiSubX c)).sum := by
        exact sum_map_mul_right_nat _ _ _
    _ = _ := Nat.mul_comm _ _

/-- C6 counterexample: for a 10×10 image with an in-range 4×4 tile grid
(`RegionWidth = RegionHeight = 2`, `ImageWidth = ImageHeight = 8`), the
interpolation blocks total `10 × 10 = 100`, not
`ImageWidth × ImageHeight = 64`: the blocks cover the whole original image
including the remainder rows/columns, not just the tiled interior. -/
theorem claim_C6_counterexample :
    (2 : Nat) ≤ 4 ∧ (4 : Nat) ≤ 16 ∧
    blockAreasTotal ⟨10, 10, 4, 4⟩
      ≠ ImageWidth ⟨10, 10, 4, 4⟩ * ImageHeight ⟨10, 10, 4, 4⟩ := by
  refine ⟨by decide, by decide, by decide⟩

/-- C6 amended: for every configuration with in-range tile counts and even
`RegionWidth` and `RegionHeight`, the interpolation-block areas sum exactly
to `OriginalImageWidth × OriginalImageHeight` — the full original image, not
`ImageWidth × ImageHeight` (and with an odd region dimension even that fails:
the two half-blocks of an odd region lose one pixel to integer halving). -/
theorem claim_C6_amended (c : AltaCfg)
    (hh1 : 2 ≤ c.NumHorRegions) (hh2 : c.NumHorRegions ≤ 16)
    (hv1 : 2 ≤ c.NumVertRegions) (hv2 : c.NumVertRegions ≤ 16)
    (hwe : RegionWidth c % 2 = 0) (hhe : RegionHeight c % 2 = 0) :
    blockAreasTotal c = c.OriginalImageWidth * c.OriginalImageHeight := by
  rw [blockAreasTotal_eq_mul, sum_uiSubX_total c (by omega) hwe,
    sum_uiSubY_total c (by omega) hhe]

/-- Witness for the amended C6 at an 8×8 image with a 2×2 grid. -/
theorem claim_C6_witness :
    ((2 : Nat) ≤ 2 ∧ (2 : Nat) ≤ 16 ∧ RegionWidth ⟨8, 8, 2, 2⟩ % 2 = 0 ∧
      RegionHeight ⟨8, 8, 2, 2⟩ % 2 = 0) ∧
    blockAreasTotal ⟨8, 8, 2, 2⟩ = 8 * 8 :=
  ⟨by decide, claim_C6_amended ⟨8, 8, 2, 2⟩ (by decide) (by decide) (by decide)
    (by decide) (by decide) (by decide)⟩

/-! ## Luminance round-trip lemmas (claim C8) -/

/-- C8 counterexample: the RGB24 pixel `(0, 0, 4)` has extracted luminance
`(4 * 3735 + 16384) >> 15 = 0`, so `InjectYComponent` takes the
division-by-zero special case and sets the pixel to grayscale 0: the blue
channel changes from 4 to 0, an error of 4 > 1. -/
theorem claim_C8_counterexample :
    InjectYComponent 1 (fun i => if i = 2 then 4 else 0)
      (ExtractYComponent 1 (fun i => if i = 2 then 4 else 0)
        Y_RED_SCALE Y_GREEN_SCALE Y_BLUE_SCALE 3)
      Y_RED_SCALE Y_GREEN_SCALE Y_BLUE_SCALE 3 2 = 0 ∧
    (if (2 : Nat) = 2 then (4 : Nat) else 0) = 4 ∧
    ¬ ((4 : Nat) - 0 ≤ 1 ∧ (0 : Nat) - 4 ≤ 1) := by
  refine ⟨by decide, by decide, by decide⟩

/-- C8 amended: applying Extract then Inject with the working buffer
unmodified reproduces every channel of every pixel **exactly** when the
pixel's extracted luminance is nonzero; a pixel whose extracted luminance is
zero is set to grayscale `(0,0,0)`, and its original channels are then at
most 4, so the per-channel round-trip error is bounded by 4 (not 1).
Stated for any channel factors that are at least `Y_BLUE_SCALE = 3735` and
sum to at most `2^15 - 1` (both RGB and BGR orderings satisfy this). -/
theorem claim_C8_amended (buf : Nat → Nat) (f1 f2 f3 PixelOffset numPixels i ch : Nat)
    (hf1 : 3735 ≤ f1) (hf2 : 3735 ≤ f2) (hf3 : 3735 ≤ f3)
    (hfs : f1 + f2 + f3 ≤ 32767) (hoff : 3 ≤ PixelOffset)
    (hi : i < numPixels) (hch : ch < 3)
    (hbyte : buf (i * PixelOffset + ch) ≤ 255) :
    (lumaOf buf f1 f2 f3 PixelOffset i ≠ 0 →
      InjectYComponent numPixels buf
        (ExtractYComponent numPixels buf f1 f2 f3 PixelOffset) f1 f2 f3 PixelOffset
        (i * PixelOffset + ch) = buf (i * PixelOffset + ch)) ∧
    (lumaOf buf f1 f2 f3 PixelOffset i = 0 →
      InjectYComponent numPixels buf
        (ExtractYComponent numPixels buf f1 f2 f3 PixelOffset) f1 f2 f3 PixelOffset
        (i * PixelOffset + ch) = 0 ∧ buf (i * PixelOffset + ch) ≤ 4) := by
  have hoffpos : 0 < PixelOffset := by omega
  have hdivi : (i * PixelOffset + ch) / PixelOffset = i := by
    rw [Nat.mul_comm, Nat.mul_add_div hoffpos, Nat.div_eq_of_lt (by omega), Nat.add_zero]
  have hmodi : (i * PixelOffset + ch) % PixelOffset = ch := by
    rw [Nat.mul_comm i PixelOffset, Nat.mul_add_mod]
    exact Nat.mod_eq_of_lt (by omega)
  have hybuf : ExtractYComponent numPixels buf f1 f2 f3 PixelOffset i
      = lumaOf buf f1 f2 f3 PixelOffset i := by
    simp [ExtractYComponent, hi]
  have hinj : InjectYComponent numPixels buf
      (ExtractYComponent numPixels buf f1 f2 f3 PixelOffset) f1 f2 f3 PixelOffset
      (i * PixelOffset + ch)
      = if lumaOf buf f1 f2 f3 PixelOffset i = 0 then
          lumaOf buf f1 f2 f3 PixelOffset i
        else min ((buf (i * PixelOffset + ch) *
            ((lumaOf buf f1 f2 f3 PixelOffset i * 256) /
              lumaOf buf f1 f2 f3 PixelOffset i)) / 256) 255 := by
    simp only [InjectYComponent, hdivi, hmodi, hybuf]
    rw [if_pos ⟨hi, hch⟩]
  constructor
  · intro hne
    rw [hinj, if_neg hne]
    have hpos : 0 < lumaOf buf f1 f2 f3 PixelOffset i := Nat.pos_of_ne_zero hne
    rw [Nat.mul_div_cancel_left 256 hpos, Nat.mul_div_cancel _ (by omega)]
    exact Nat.min_eq_left hbyte
  · intro hz
    rw [hinj, if_pos hz]
    refine ⟨hz, ?_⟩
    have hdiv0 : (buf (i * PixelOffset) * f1 + buf (i * PixelOffset + 1) * f2
        + buf (i * PixelOffset + 2) * f3 + 2 ^ (SCALING_LOG - 1)) / 2 ^ SCALING_LOG = 0 := by
      unfold lumaOf at hz
      omega
    have hlt : buf (i * PixelOffset) * f1 + buf (i * PixelOffset + 1) * f2
        + buf (i * PixelOffset + 2) * f3 + 2 ^ (SCALING_LOG - 1) < 2 ^ SCALING_LOG := by
      by_contra hge
      have h1 : 1 ≤ (buf (i * PixelOffset) * f1 + buf (i * PixelOffset + 1) * f2
          + buf (i * PixelOffset + 2) * f3 + 2 ^ (SCALING_LOG - 1)) / 2 ^ SCALING_LOG :=
        (Nat.one_le_div_iff (by decide)).mpr (by omega)
      omega
    have hS : buf (i * PixelOffset) * f1 + buf (i * PixelOffset + 1) * f2
        + buf (i * PixelOffset + 2) * f3 ≤ 16383 := by
      have h15 : (2 : Nat) ^ SCALING_LOG = 32768 := by decide
      have h14 : (2 : Nat) ^ (SCALING_LOG - 1) = 16384 := by decide
      omega
    have hc3 : ch = 0 ∨ ch = 1 ∨ ch = 2 := by omega
    rcases hc3 with rfl | rfl | rfl
    · have hz0 : i * PixelOffset + 0 = i * PixelOffset := Nat.add_zero _
      rw [hz0]
      have hm1 : buf (i * PixelOffset) * 3735 ≤ buf (i * PixelOffset) * f1 :=
        Nat.mul_le_mul_left _ hf1
      omega
    · have hm1 : buf (i * PixelOffset + 1) * 3735 ≤ buf (i * PixelOffset + 1) * f2 :=
        Nat.mul_le_mul_left _ hf2
      omega
    · have hm1 : buf (i * PixelOffset + 2) * 3735 ≤ buf (i * PixelOffset + 2) * f3 :=
        Nat.mul_le_mul_left _ hf3
      omega

/-- Witness for the amended C8: an all-100 RGB24 pixel has nonzero extracted
luminance and round-trips exactly. -/
theorem claim_C8_witness :
    ((3735 : Nat) ≤ Y_RED_SCALE ∧ (3735 : Nat) ≤ Y_GREEN_SCALE ∧
      (3735 : Nat) ≤ Y_BLUE_SCALE ∧ Y_RED_SCALE + Y_GREEN_SCALE + Y_BLUE_SCALE ≤ 32767 ∧
      (3 : Nat) ≤ 3 ∧ (0 : Nat) < 1 ∧ (0 : Nat) < 3 ∧ (fun _ : Nat => (100 : Nat)) 0 ≤ 255) ∧
    InjectYComponent 1 (fun _ => 100)
      (ExtractYComponent 1 (fun _ => 100) Y_RED_SCALE Y_GREEN_SCALE Y_BLUE_SCALE 3)
      Y_RED_SCALE Y_GREEN_SCALE Y_BLUE_SCALE 3 (0 * 3 + 0) = (fun _ : Nat => (100 : Nat)) (0 * 3 + 0) :=
  ⟨by decide, (claim_C8_amended (fun _ => 100) Y_RED_SCALE Y_GREEN_SCALE Y_BLUE_SCALE 3 1 0 0
    (by decide) (by decide) (by decide) (by decide) (by decide) (by decide) (by decide)
    (by decide)).1 (by decide)⟩

/-! ## Configuration claims (C2, C9) -/

/-- C2: evaluation of the embedded `SetStrength` at the failing input 0.
The claim (and the header documentation of `SetStrength`) promise that
strength 0 configures pass-through: internal `ClipLimit == 1.0`, no working
buffer, unchanged output.  The code instead computes
`Strength = _Strength + 4`, so `SetStrength(0)` yields internal strength 4,
`ClipLimit = 1.16 ≠ 1.0`, and an allocated working buffer; a subsequent
`ProcessXxx` call runs the full filter. -/
theorem claim_C2_setStrength_zero_bug :
    (SetStrength 0 true (mkFilter 100 100 8 8 true)).Strength = 4 ∧
    clipLimitOf (SetStrength 0 true (mkFilter 100 100 8 8 true)) = 29 / 25 ∧
    (29 : Rat) / 25 ≠ 1 ∧
    (SetStrength 0 true (mkFilter 100 100 8 8 true)).hasImageBuffer = true := by
  have hS : (SetStrength 0 true (mkFilter 100 100 8 8 true)).Strength = 4 := by decide
  refine ⟨hS, ?_, by norm_num, by decide⟩
  rw [clipLimitOf, hS]
  norm_num

/-- C9 counterexample: the constructor stores the requested tile counts
without clamping; constructing with 17×17 tiles leaves
`NumHorRegions = 17 ∉ [2, 16]`. -/
theorem claim_C9_counterexample :
    ¬ (2 ≤ (mkFilter 100 100 17 17 true).NumHorRegions ∧
       (mkFilter 100 100 17 17 true).NumHorRegions ≤ 16) := by
  decide

/-- C9 amended: `SetSlices` clamps both tile counts into
`[MIN_REGIONS, MAX_REGIONS] = [2, 16]` for every input, but the constructor
stores the requested counts unclamped (clamping only happens on a later
`SetSlices` call). -/
theorem claim_C9_amended (HorSlices VerSlices Width Height : Int) (allocOk : Bool)
    (st : FilterState) :
    (2 ≤ (SetSlices HorSlices VerSlices st).NumHorRegions ∧
     (SetSlices HorSlices VerSlices st).NumHorRegions ≤ 16 ∧
     2 ≤ (SetSlices HorSlices VerSlices st).NumVertRegions ∧
     (SetSlices HorSlices VerSlices st).NumVertRegions ≤ 16) ∧
    (mkFilter Width Height HorSlices VerSlices allocOk).NumHorRegions = HorSlices ∧
    (mkFilter Width Height HorSlices VerSlices allocOk).NumVertRegions = VerSlices := by
  refine ⟨?_, rfl, rfl⟩
  simp only [SetSlices, MIN_REGIONS, MAX_REGIONS]
  split_ifs <;> omega

/-! ## `ProcessGeneric` error handling (claim C7) -/

/-- C7: the generic colour entry point returns `AL_NULL_IMAGE` with no other
effect on a null image; returns `AL_OUT_OF_MEMORY` with the caller's buffer
untouched when the working-buffer allocation fails (no buffer and the retry
allocation fails) or when `Run`'s mapping-array allocation fails; otherwise
it returns `AL_OK` with the caller's buffer fully transformed by the
Extract / Run / Inject pipeline — the buffer is never partially written. -/
theorem claim_C7_processGeneric (c : AltaCfg) (ClipLimit : Rat)
    (hasBuf bufAllocOk mapAllocOk : Bool) (buf : Nat → Nat) (f1 f2 f3 PixelOffset : Nat) :
    (ProcessGeneric c ClipLimit hasBuf bufAllocOk mapAllocOk none f1 f2 f3 PixelOffset
      = (AL_NULL_IMAGE, none)) ∧
    (ProcessGeneric c ClipLimit false false mapAllocOk (some buf) f1 f2 f3 PixelOffset
      = (AL_OUT_OF_MEMORY, some buf)) ∧
    ((ProcessGeneric c ClipLimit hasBuf bufAllocOk mapAllocOk (some buf) f1 f2 f3
        PixelOffset).1 = AL_OUT_OF_MEMORY ∧
      (ProcessGeneric c ClipLimit hasBuf bufAllocOk mapAllocOk (some buf) f1 f2 f3
        PixelOffset).2 = some buf
     ∨ ProcessGeneric c ClipLimit hasBuf bufAllocOk mapAllocOk (some buf) f1 f2 f3 PixelOffset
      = (AL_OK, some (InjectYComponent (c.OriginalImageWidth * c.OriginalImageHeight) buf
          (serialRun c ClipLimit mapAllocOk
            (ExtractYComponent (c.OriginalImageWidth * c.OriginalImageHeight) buf
              f1 f2 f3 PixelOffset)).2
          f1 f2 f3 PixelOffset))) := by
  refine ⟨rfl, ?_, ?_⟩
  · simp [ProcessGeneric]
  · by_cases hb : hasBuf = false ∧ bufAllocOk = false
    · left
      simp [ProcessGeneric, hb]
    · by_cases hcl : ClipLimit = 1
      · right
        simp [ProcessGeneric, hb, serialRun, hcl, AL_OK]
      · by_cases hm : mapAllocOk = false
        · left
          have hrun : serialRun c ClipLimit mapAllocOk
              (ExtractYComponent (c.OriginalImageWidth * c.OriginalImageHeight) buf
                f1 f2 f3 PixelOffset)
              = (AL_OUT_OF_MEMORY,
                 ExtractYComponent (c.OriginalImageWidth * c.OriginalImageHeight) buf
                   f1 f2 f3 PixelOffset) := by
            simp [serialRun, hcl, hm]
          have hne : AL_OUT_OF_MEMORY ≠ AL_OK := by decide
          simp [ProcessGeneric, hb, hrun, hne]
        · right
          have hrun : serialRun c ClipLimit mapAllocOk
              (ExtractYComponent (c.OriginalImageWidth * c.OriginalImageHeight) buf
                f1 f2 f3 PixelOffset)
              = (AL_OK, (serialCore c (ulClipLimitOf c ClipLimit)
                  ⟨ExtractYComponent (c.OriginalImageWidth * c.OriginalImageHeight) buf
                    f1 f2 f3 PixelOffset, initMaps⟩).img) := by
            simp [serialRun, hcl, hm]
          simp [ProcessGeneric, hb, hrun, AL_OK]

/-! ## Strategy-equivalence lemmas (claim C1)

The per-row tasks of the four strategies touch disjoint state: phase 1 of
row `Y'` writes only mapping row `Y'` and reads only image rows
`[stripRow Y', stripRow Y' + RegionHeight)`, while phase 2 of a row `Y < Y'`
writes only image rows `[stripRow Y, stripRow Y + uiSubY Y)` (which lie
strictly above) and reads only mapping rows `uiYU Y, uiYB Y ≤ Y < Y'`.
Hence phase 1 of a later row commutes with phase 2 of an earlier row, which
turns every schedule the four strategies realise into the same function. -/

theorem algState_eq (s t : AlgState) (h1 : s.img = t.img) (h2 : s.maps = t.maps) :
    s = t := by
  cases s
  cases t
  simp_all

theorem xOffset_succ (c : AltaCfg) (k : Nat) :
    xOffset c (k + 1) = xOffset c k + uiSubX c k := by
  unfold xOffset
  rw [List.range_succ, List.map_append, List.sum_append]
  simp

theorem xOffset_eq (c : AltaCfg) :
    ∀ uiX, 1 ≤ uiX → uiX ≤ c.NumHorRegions →
      xOffset c uiX = RegionWidth c / 2 + (uiX - 1) * RegionWidth c := by
  intro uiX
  induction uiX with
  | zero => intro h; omega
  | succ k ih =>
    intro _ hle
    rw [xOffset_succ]
    by_cases hk : k = 0
    · subst hk
      have h0 : xOffset c 0 = 0 := rfl
      have hs : uiSubX c 0 = RegionWidth c / 2 := by simp [uiSubX]
      rw [h0, hs]
      simp
    · have hk1 : 1 ≤ k := by omega
      have hkNH : k ≤ c.NumHorRegions := by omega
      have hkne : ¬ (k = c.NumHorRegions) := by omega
      have hs : uiSubX c k = RegionWidth c := by simp [uiSubX, hk, hkne]
      rw [ih hk1 hkNH, hs]
      obtain ⟨m, hm⟩ : ∃ m, k = m + 1 := ⟨k - 1, by omega⟩
      subst hm
      have e1 : m + 1 - 1 = m := rfl
      have e2 : m + 1 + 1 - 1 = m + 1 := rfl
      rw [e1, e2, Nat.succ_mul]
      omega

theorem regionWidth_le (c : AltaCfg) : RegionWidth c ≤ c.OriginalImageWidth :=
  Nat.div_le_self _ _

theorem imageWidth_le (c : AltaCfg) :
    RegionWidth c * c.NumHorRegions ≤ c.OriginalImageWidth := by
  rw [RegionWidth]
  exact Nat.div_mul_le_self _ _

theorem xOffset_add_width_le (c : AltaCfg) (hNH : 1 ≤ c.NumHorRegions) :
    ∀ uiX ≤ c.NumHorRegions, xOffset c uiX + uiSubX c uiX ≤ c.OriginalImageWidth := by
  intro uiX hle
  by_cases h0 : uiX = 0
  · subst h0
    have h1 : xOffset c 0 = 0 := rfl
    have h2 : uiSubX c 0 = RegionWidth c / 2 := by simp [uiSubX]
    have h3 := regionWidth_le c
    rw [h1, h2]
    omega
  · by_cases hN : uiX = c.NumHorRegions
    · subst hN
      rw [xOffset_eq c _ (by omega) (Nat.le_refl _)]
      have hs : uiSubX c c.NumHorRegions
          = RegionWidth c / 2 + (c.OriginalImageWidth - ImageWidth c) := by
        simp [uiSubX, h0]
      rw [hs]
      have hIW : ImageWidth c = RegionWidth c * c.NumHorRegions := rfl
      have hle2 := imageWidth_le c
      have hmul : (c.NumHorRegions - 1) * RegionWidth c + RegionWidth c
          = RegionWidth c * c.NumHorRegions := by
        obtain ⟨m, hm⟩ : ∃ m, c.NumHorRegions = m + 1 := ⟨c.NumHorRegions - 1, by omega⟩
        rw [hm]
        have e1 : m + 1 - 1 = m := rfl
        rw [e1, Nat.mul_comm (RegionWidth c) (m + 1), Nat.succ_mul]
      omega
    · rw [xOffset_eq c _ (by omega) hle]
      have hs : uiSubX c uiX = RegionWidth c := by simp [uiSubX, h0, hN]
      rw [hs]
      have hmul : (uiX - 1) * RegionWidth c + RegionWidth c = uiX * RegionWidth c := by
        obtain ⟨m, hm⟩ : ∃ m, uiX = m + 1 := ⟨uiX - 1, by omega⟩
        rw [hm]
        have e1 : m + 1 - 1 = m := rfl
        rw [e1, Nat.succ_mul]
      have hmono : uiX * RegionWidth c ≤ c.NumHorRegions * RegionWidth c :=
        Nat.mul_le_mul_right _ hle
      have hle2 := imageWidth_le c
      have hcomm : c.NumHorRegions * RegionWidth c = RegionWidth c * c.NumHorRegions :=
        Nat.mul_comm _ _
      have hhalf : RegionWidth c / 2 ≤ RegionWidth c := Nat.div_le_self _ _
      by_cases hz : RegionWidth c = 0
      · omega
      · have h1 : 1 ≤ RegionWidth c := by omega
        have h2 : RegionWidth c / 2 + uiX * RegionWidth c
            ≤ RegionWidth c + (c.NumHorRegions - 1) * RegionWidth c := by
          have : uiX ≤ c.NumHorRegions - 1 := by omega
          have hm2 : uiX * RegionWidth c ≤ (c.NumHorRegions - 1) * RegionWidth c :=
            Nat.mul_le_mul_right _ this
          omega
        have h3 : RegionWidth c + (c.NumHorRegions - 1) * RegionWidth c
            = c.NumHorRegions * RegionWidth c := by
          obtain ⟨m, hm⟩ : ∃ m, c.NumHorRegions = m + 1 := ⟨c.NumHorRegions - 1, by omega⟩
          rw [hm]
          have e1 : m + 1 - 1 = m := rfl
          rw [e1, Nat.succ_mul]
          omega
        omega

theorem row_decomp (OW a b : Nat) (hOW : 0 < OW) (hb : b < OW) :
    (a * OW + b) / OW = a := by
  rw [Nat.mul_comm a OW, Nat.mul_add_div hOW, Nat.div_eq_of_lt hb, Nat.add_zero]

theorem interpolate_row_mem (c : AltaCfg) (uiY uiX MH p : Nat)
    (hOW : 1 ≤ c.OriginalImageWidth) (hNH : 1 ≤ c.NumHorRegions)
    (hX : uiX ≤ c.NumHorRegions)
    (hin : stripRow c uiY * c.OriginalImageWidth + xOffset c uiX ≤ p ∧
      (p - (stripRow c uiY * c.OriginalImageWidth + xOffset c uiX)) % c.OriginalImageWidth
        < uiSubX c uiX ∧
      (p - (stripRow c uiY * c.OriginalImageWidth + xOffset c uiX)) / c.OriginalImageWidth
        < MH) :
    stripRow c uiY ≤ p / c.OriginalImageWidth ∧
      p / c.OriginalImageWidth < stripRow c uiY + MH := by
  obtain ⟨hbase, hx, hy⟩ := hin
  set base := stripRow c uiY * c.OriginalImageWidth + xOffset c uiX with hbasedef
  set q := (p - base) / c.OriginalImageWidth with hq
  set r := (p - base) % c.OriginalImageWidth with hr
  have hdm : c.OriginalImageWidth * q + r = p - base := by
    rw [hq, hr]
    exact Nat.div_add_mod (p - base) c.OriginalImageWidth
  have hrOW : r < c.OriginalImageWidth := by
    rw [hr]
    exact Nat.mod_lt _ (by omega)
  have hwidth := xOffset_add_width_le c hNH uiX hX
  have hxoffr : xOffset c uiX + r < c.OriginalImageWidth := by omega
  have hp : p = (stripRow c uiY + q) * c.OriginalImageWidth + (xOffset c uiX + r) := by
    have hpb : p = base + (c.OriginalImageWidth * q + r) := by omega
    rw [hpb, hbasedef]
    ring
  have hrow : p / c.OriginalImageWidth = stripRow c uiY + q := by
    rw [hp]
    exact row_decomp _ _ _ (by omega) hxoffr
  have hyq : q < MH := hy
  refine ⟨?_, ?_⟩
  · rw [hrow]
    exact Nat.le_add_right _ _
  · rw [hrow]
    exact Nat.add_lt_add_left hyq _

theorem interpolate_frame (OW : Nat) (img : Nat → Nat) (base : Nat)
    (mLU mRU mLB mRB : List Nat) (MW MH p : Nat)
    (hnot : ¬ (base ≤ p ∧ (p - base) % OW < MW ∧ (p - base) / OW < MH)) :
    Interpolate OW img base mLU mRU mLB mRB MW MH p = img p := by
  unfold Interpolate
  rw [if_neg hnot]

theorem phase2Img_block_frame (c : AltaCfg) (maps : Nat → Nat → List Nat)
    (uiY : Nat) (p : Nat)
    (hOW : 1 ≤ c.OriginalImageWidth) (hNH : 1 ≤ c.NumHorRegions)
    (hrow : p / c.OriginalImageWidth < stripRow c uiY ∨
      stripRow c uiY + uiSubY c uiY ≤ p / c.OriginalImageWidth) :
    ∀ (l : List Nat), (∀ x ∈ l, x ≤ c.NumHorRegions) → ∀ img : Nat → Nat,
      (l.foldl (fun im uiX =>
        Interpolate c.OriginalImageWidth im
          (stripRow c uiY * c.OriginalImageWidth + xOffset c uiX)
          (maps (uiYU c uiY) (uiXL c uiX)) (maps (uiYU c uiY) (uiXR c uiX))
          (maps (uiYB c uiY) (uiXL c uiX)) (maps (uiYB c uiY) (uiXR c uiX))
          (uiSubX c uiX) (uiSubY c uiY)) img) p = img p := by
  intro l
  induction l with
  | nil => intro _ img; rfl
  | cons x t ih =>
    intro hmem img
    rw [List.foldl_cons]
    rw [ih (fun y hy => hmem y (List.mem_cons_of_mem x hy))]
    apply interpolate_frame
    intro hin
    have := interpolate_row_mem c uiY x (uiSubY c uiY) p hOW hNH
      (hmem x (List.mem_cons_self x t)) hin
    omega

theorem phase2Img_frame (c : AltaCfg) (maps : Nat → Nat → List Nat)
    (uiY : Nat) (img : Nat → Nat) (p : Nat)
    (hOW : 1 ≤ c.OriginalImageWidth) (hNH : 1 ≤ c.NumHorRegions)
    (hrow : p / c.OriginalImageWidth < stripRow c uiY ∨
      stripRow c uiY + uiSubY c uiY ≤ p / c.OriginalImageWidth) :
    phase2Img c maps uiY img p = img p := by
  unfold phase2Img
  exact phase2Img_block_frame c maps uiY p hOW hNH hrow (List.range (c.NumHorRegions + 1))
    (fun x hx => by
      have := List.mem_range.mp hx
      omega) img

theorem phase2Img_congr (c : AltaCfg) (m1 m2 : Nat → Nat → List Nat)
    (uiY : Nat) (img : Nat → Nat)
    (hU : ∀ x, m1 (uiYU c uiY) x = m2 (uiYU c uiY) x)
    (hB : ∀ x, m1 (uiYB c uiY) x = m2 (uiYB c uiY) x) :
    phase2Img c m1 uiY img = phase2Img c m2 uiY img := by
  unfold phase2Img
  have hfun : (fun (im : Nat → Nat) (uiX : Nat) =>
      Interpolate c.OriginalImageWidth im
        (stripRow c uiY * c.OriginalImageWidth + xOffset c uiX)
        (m1 (uiYU c uiY) (uiXL c uiX)) (m1 (uiYU c uiY) (uiXR c uiX))
        (m1 (uiYB c uiY) (uiXL c uiX)) (m1 (uiYB c uiY) (uiXR c uiX))
        (uiSubX c uiX) (uiSubY c uiY))
      = (fun (im : Nat → Nat) (uiX : Nat) =>
      Interpolate c.OriginalImageWidth im
        (stripRow c uiY * c.OriginalImageWidth + xOffset c uiX)
        (m2 (uiYU c uiY) (uiXL c uiX)) (m2 (uiYU c uiY) (uiXR c uiX))
        (m2 (uiYB c uiY) (uiXL c uiX)) (m2 (uiYB c uiY) (uiXR c uiX))
        (uiSubX c uiX) (uiSubY c uiY)) := by
    funext im uiX
    rw [hU (uiXL c uiX), hU (uiXR c uiX), hB (uiXL c uiX), hB (uiXR c uiX)]
  rw [hfun]

theorem tilePixels_congr (c : AltaCfg) (img1 img2 : Nat → Nat) (origin : Nat)
    (h : ∀ i j, i < RegionHeight c → j < RegionWidth c →
      img1 (origin + i * c.OriginalImageWidth + j)
        = img2 (origin + i * c.OriginalImageWidth + j)) :
    tilePixels c img1 origin = tilePixels c img2 origin := by
  unfold tilePixels
  apply congrArg
  apply List.map_congr_left
  intro i hi
  apply List.map_congr_left
  intro j hj
  exact h i j (List.mem_range.mp hi) (List.mem_range.mp hj)

theorem computeTile_congr (c : AltaCfg) (clip : Nat) (img1 img2 : Nat → Nat)
    (uiY uiX : Nat)
    (h : ∀ i j, i < RegionHeight c → j < RegionWidth c →
      img1 (tileOrigin c uiY uiX + i * c.OriginalImageWidth + j)
        = img2 (tileOrigin c uiY uiX + i * c.OriginalImageWidth + j)) :
    computeTile c clip img1 uiY uiX = computeTile c clip img2 uiY uiX := by
  unfold computeTile MakeHistogram
  rw [tilePixels_congr c img1 img2 _ h]

theorem uiYU_le (c : AltaCfg) (uiY : Nat) : uiYU c uiY ≤ uiY := by
  unfold uiYU
  split_ifs <;> omega

theorem uiYB_le (c : AltaCfg) (uiY : Nat) : uiYB c uiY ≤ uiY := by
  unfold uiYB
  split_ifs <;> omega

theorem strip_disjoint (c : AltaCfg) (Y Yp : Nat) (hYY : Y < Yp)
    (hYNV : Y < c.NumVertRegions) :
    stripRow c Y + uiSubY c Y ≤ stripRow c Yp := by
  have hYp1 : 1 ≤ Yp := by omega
  have hsp : stripRow c Yp = RegionHeight c / 2 + (Yp - 1) * RegionHeight c := by
    simp only [stripRow]
    rw [if_pos (by omega : 0 < Yp)]
  by_cases hY0 : Y = 0
  · subst hY0
    have h1 : stripRow c 0 = 0 := by simp [stripRow]
    have h2 : uiSubY c 0 = RegionHeight c / 2 := by simp [uiSubY]
    rw [h1, h2, hsp]
    omega
  · have hYne : ¬ (Y = c.NumVertRegions) := by omega
    have h1 : stripRow c Y = RegionHeight c / 2 + (Y - 1) * RegionHeight c := by
      simp only [stripRow]
      rw [if_pos (by omega : 0 < Y)]
    have h2 : uiSubY c Y = RegionHeight c := by simp [uiSubY, hY0, hYne]
    rw [h1, h2, hsp]
    have hm1 : (Y - 1) * RegionHeight c + RegionHeight c = Y * RegionHeight c := by
      obtain ⟨m, hm⟩ : ∃ m, Y = m + 1 := ⟨Y - 1, by omega⟩
      rw [hm]
      have e1 : m + 1 - 1 = m := rfl
      rw [e1, Nat.succ_mul]
    have hm2 : Y * RegionHeight c ≤ (Yp - 1) * RegionHeight c :=
      Nat.mul_le_mul_right _ (by omega)
    omega

theorem tile_read_row (c : AltaCfg) (uiY uiX i j : Nat)
    (hOW : 1 ≤ c.OriginalImageWidth) (hX : uiX < c.NumHorRegions)
    (hj : j < RegionWidth c) :
    (tileOrigin c uiY uiX + i * c.OriginalImageWidth + j) / c.OriginalImageWidth
      = stripRow c uiY + i := by
  have hcol : uiX * RegionWidth c + j < c.OriginalImageWidth := by
    have h1 : uiX * RegionWidth c + j < (uiX + 1) * RegionWidth c := by
      rw [Nat.succ_mul]
      omega
    have h2 : (uiX + 1) * RegionWidth c ≤ c.NumHorRegions * RegionWidth c :=
      Nat.mul_le_mul_right _ (by omega)
    have h3 : c.NumHorRegions * RegionWidth c = RegionWidth c * c.NumHorRegions :=
      Nat.mul_comm _ _
    have h4 := imageWidth_le c
    omega
  have hrewrite : tileOrigin c uiY uiX + i * c.OriginalImageWidth + j
      = (stripRow c uiY + i) * c.OriginalImageWidth + (uiX * RegionWidth c + j) := by
    unfold tileOrigin
    ring
  rw [hrewrite]
  exact row_decomp _ _ _ (by omega) hcol

theorem phase1_phase2_comm (c : AltaCfg) (clip Y Yp : Nat) (st : AlgState)
    (hYY : Y < Yp) (hOW : 1 ≤ c.OriginalImageWidth) (hNH : 1 ≤ c.NumHorRegions) :
    phase1 c clip Yp (phase2 c Y st) = phase2 c Y (phase1 c clip Yp st) := by
  apply algState_eq
  · show phase2Img c st.maps Y st.img
      = phase2Img c (phase1 c clip Yp st).maps Y st.img
    apply phase2Img_congr
    · intro x
      have hle := uiYU_le c Y
      have hne : ¬ (uiYU c Y = Yp ∧ Yp < c.NumVertRegions ∧ x < c.NumHorRegions) := by
        intro ⟨h1, _, _⟩
        omega
      show st.maps (uiYU c Y) x = (phase1 c clip Yp st).maps (uiYU c Y) x
      simp only [phase1]
      rw [if_neg hne]
    · intro x
      have hle := uiYB_le c Y
      have hne : ¬ (uiYB c Y = Yp ∧ Yp < c.NumVertRegions ∧ x < c.NumHorRegions) := by
        intro ⟨h1, _, _⟩
        omega
      show st.maps (uiYB c Y) x = (phase1 c clip Yp st).maps (uiYB c Y) x
      simp only [phase1]
      rw [if_neg hne]
  · funext r x
    show (if r = Yp ∧ Yp < c.NumVertRegions ∧ x < c.NumHorRegions then
        computeTile c clip (phase2 c Y st).img Yp x
      else (phase2 c Y st).maps r x)
      = (phase1 c clip Yp st).maps r x
    by_cases hcond : r = Yp ∧ Yp < c.NumVertRegions ∧ x < c.NumHorRegions
    · rw [if_pos hcond]
      show computeTile c clip (phase2Img c st.maps Y st.img) Yp x
        = (phase1 c clip Yp st).maps r x
      have hmaps : (phase1 c clip Yp st).maps r x = computeTile c clip st.img Yp x := by
        simp only [phase1]
        rw [if_pos hcond]
      rw [hmaps]
      apply computeTile_congr
      intro i j hi hj
      apply phase2Img_frame c st.maps Y st.img _ hOW hNH
      right
      rw [tile_read_row c Yp x i j hOW hcond.2.2 hj]
      have hdisj := strip_disjoint c Y Yp hYY (by omega)
      omega
    · rw [if_neg hcond]
      show (phase2 c Y st).maps r x = (phase1 c clip Yp st).maps r x
      simp only [phase1, phase2]
      rw [if_neg hcond]

theorem phase1_fold_comm (c : AltaCfg) (clip Yp : Nat)
    (hOW : 1 ≤ c.OriginalImageWidth) (hNH : 1 ≤ c.NumHorRegions) :
    ∀ (l : List Nat), (∀ y ∈ l, y < Yp) → ∀ st : AlgState,
      phase1 c clip Yp (l.foldl (fun s y => phase2 c y s) st)
        = l.foldl (fun s y => phase2 c y s) (phase1 c clip Yp st) := by
  intro l
  induction l with
  | nil => intro _ st; rfl
  | cons y l ih =>
    intro h st
    simp only [List.foldl_cons]
    rw [ih (fun z hz => h z (List.mem_cons_of_mem _ hz))]
    rw [phase1_phase2_comm c clip y Yp st (h y (List.mem_cons_self y l)) hOW hNH]

theorem serial_eq_split_fold (c : AltaCfg) (clip : Nat)
    (hOW : 1 ≤ c.OriginalImageWidth) (hNH : 1 ≤ c.NumHorRegions) :
    ∀ (n : Nat) (st : AlgState),
      (List.range n).foldl (serialBody c clip) st
        = (List.range n).foldl (fun s y => phase2 c y s)
            ((List.range n).foldl (fun s y => phase1 c clip y s) st) := by
  intro n
  induction n with
  | zero => intro st; rfl
  | succ n ih =>
    intro st
    rw [List.range_succ]
    simp only [List.foldl_append, List.foldl_cons, List.foldl_nil]
    rw [ih st]
    simp only [serialBody]
    congr 1
    exact phase1_fold_comm c clip n hOW hNH (List.range n)
      (fun y hy => List.mem_range.mp hy) _

theorem event_eq_split_fold (c : AltaCfg) (clip : Nat)
    (hOW : 1 ≤ c.OriginalImageWidth) (hNH : 1 ≤ c.NumHorRegions) :
    ∀ (n : Nat) (st : AlgState),
      (List.range n).foldl (fun s y => phase2 c y (phase1 c clip (y + 1) s))
          (phase1 c clip 0 st)
        = (List.range n).foldl (fun s y => phase2 c y s)
            ((List.range (n + 1)).foldl (fun s y => phase1 c clip y s) st) := by
  intro n
  induction n with
  | zero => intro st; rfl
  | succ n ih =>
    intro st
    rw [List.range_succ]
    simp only [List.foldl_append, List.foldl_cons, List.foldl_nil]
    rw [ih st]
    have hP1 : (List.range (n + 1 + 1)).foldl (fun s y => phase1 c clip y s) st
        = phase1 c clip (n + 1)
            ((List.range (n + 1)).foldl (fun s y => phase1 c clip y s) st) := by
      rw [List.range_succ]
      simp only [List.foldl_append, List.foldl_cons, List.foldl_nil]
    rw [hP1]
    congr 1
    exact phase1_fold_comm c clip (n + 1) hOW hNH (List.range n)
      (fun y hy => by have := List.mem_range.mp hy; omega) _

theorem serialCore_eq_splitLoopCore (c : AltaCfg) (clip : Nat)
    (hOW : 1 ≤ c.OriginalImageWidth) (hNH : 1 ≤ c.NumHorRegions) (st : AlgState) :
    serialCore c clip st = splitLoopCore c clip st :=
  serial_eq_split_fold c clip hOW hNH (c.NumVertRegions + 1) st

theorem eventCore_eq_splitLoopCore (c : AltaCfg) (clip : Nat)
    (hOW : 1 ≤ c.OriginalImageWidth) (hNH : 1 ≤ c.NumHorRegions) (st : AlgState) :
    eventCore c clip st = splitLoopCore c clip st := by
  unfold eventCore splitLoopCore
  rw [event_eq_split_fold c clip hOW hNH c.NumVertRegions st]
  rw [List.range_succ]
  simp only [List.foldl_append, List.foldl_cons, List.foldl_nil]

theorem activeWaitCore_eq_serialCore (c : AltaCfg) (clip : Nat) (st : AlgState) :
    activeWaitCore c clip st = serialCore c clip st := rfl

/-- C1: for every image buffer, tile-grid configuration (with a nonempty
image and at least one tile column) and clip limit, the serial strategy, the
parallel split-loop strategy, the event-based strategy (modelled from the
spec: its source file is absent from the snapshot) and the parallel
active-wait strategy return the same status code and byte-identical output
buffers.  Each parallel schedule is embedded as the in-order fold of its
task bodies; equality holds because phase 1 of a row commutes with phase 2
of every earlier row. -/
theorem claim_C1_strategy_equivalence (c : AltaCfg) (ClipLimit : Rat)
    (mapAllocOk : Bool) (img : Nat → Nat)
    (hOW : 1 ≤ c.OriginalImageWidth) (hNH : 1 ≤ c.NumHorRegions) :
    serialRun c ClipLimit mapAllocOk img = splitLoopRun c ClipLimit mapAllocOk img ∧
    splitLoopRun c ClipLimit mapAllocOk img = eventRun c ClipLimit mapAllocOk img ∧
    eventRun c ClipLimit mapAllocOk img = activeWaitRun c ClipLimit mapAllocOk img := by
  have h3 : activeWaitCore c (ulClipLimitOf c ClipLimit) ⟨img, initMaps⟩
      = serialCore c (ulClipLimitOf c ClipLimit) ⟨img, initMaps⟩ :=
    activeWaitCore_eq_serialCore c _ _
  have h1 : serialCore c (ulClipLimitOf c ClipLimit) ⟨img, initMaps⟩
      = splitLoopCore c (ulClipLimitOf c ClipLimit) ⟨img, initMaps⟩ :=
    serialCore_eq_splitLoopCore c _ hOW hNH _
  have h2 : eventCore c (ulClipLimitOf c ClipLimit) ⟨img, initMaps⟩
      = splitLoopCore c (ulClipLimitOf c ClipLimit) ⟨img, initMaps⟩ :=
    eventCore_eq_splitLoopCore c _ hOW hNH _
  unfold serialRun splitLoopRun eventRun activeWaitRun
  rw [h3, h1, h2]
  exact ⟨rfl, rfl, rfl⟩

theorem claim_C1_witness :
    (1 ≤ (AltaCfg.mk 4 4 2 2).OriginalImageWidth ∧
       1 ≤ (AltaCfg.mk 4 4 2 2).NumHorRegions) ∧
    (serialRun (AltaCfg.mk 4 4 2 2) 2 true (fun _ => 3)
        = splitLoopRun (AltaCfg.mk 4 4 2 2) 2 true (fun _ => 3) ∧
      splitLoopRun (AltaCfg.mk 4 4 2 2) 2 true (fun _ => 3)
        = eventRun (AltaCfg.mk 4 4 2 2) 2 true (fun _ => 3) ∧
      eventRun (AltaCfg.mk 4 4 2 2) 2 true (fun _ => 3)
        = activeWaitRun (AltaCfg.mk 4 4 2 2) 2 true (fun _ => 3)) :=
  ⟨⟨by decide, by decide⟩,
    claim_C1_strategy_equivalence (AltaCfg.mk 4 4 2 2) 2 true (fun _ => 3)
      (by decide) (by decide)⟩
